import Mathlib

/-!
Verification of the bitcoin_slices zero-copy Bitcoin wire-format decoder.

The Rust sources are shallowly embedded: byte slices become `List Nat`
(each element standing for one byte), machine integers become `Nat` with
explicit `% 2 ^ w` where wrapping matters, fallible parsing returns
`Except Error`, and the mutable visitor threaded through parsing becomes
explicit state passing of a `Visitor` record state.
-/

namespace BitcoinSlices

/-- A byte slice, one `Nat` per byte. -/
abbrev Bytes := List Nat

/-- The crate error enum (`src/error.rs` / the variants used by the parsing
modules: the insufficient-bytes case is `MoreBytesNeeded`). -/
inductive Error where
  | moreBytesNeeded
  | unknownSegwitFlag (b : Nat)
  | segwitFlagWithoutWitnesses
  | nonMinimalVarInt
  | visitBreak
deriving DecidableEq, Repr

/-- The success payload of every parse: the parsed view plus the remaining
suffix of the input (`src/parse_result.rs`). -/
structure ParseResult (α : Type) where
  remaining : Bytes
  parsed : α
deriving DecidableEq, Repr

/-- Types that expose their backing sub-slice, mirroring `AsRef<[u8]>`. -/
class AsBytes (α : Type) where
  bytes : α → Bytes

/-- The consumed byte count of a parse result, defined as in
`ParseResult::consumed`: the length of the parsed view's bytes. -/
def ParseResult.consumed [AsBytes α] (pr : ParseResult α) : Nat :=
  (AsBytes.bytes pr.parsed).length

instance : AsBytes Bytes := ⟨id⟩

/-- The slice reader (`src/slice.rs`, `read_slice` and `split_at_checked`):
a length-`len` front part of the slice, or the insufficient-bytes error. -/
def read_slice (s : Bytes) (len : Nat) : Except Error (ParseResult Bytes) :=
  if s.length < len then .error .moreBytesNeeded
  else .ok ⟨s.drop len, s.take len⟩

/-- Little-endian interpretation of a byte list. -/
def fromLe (bs : Bytes) : Nat :=
  bs.foldr (fun b acc => b + 256 * acc) 0

/-- The `U8` wrapper of `src/number.rs`, holding its backing byte. -/
structure U8 where
  bytes : Bytes
deriving DecidableEq, Repr

/-- The `U16` wrapper of `src/number.rs`. -/
structure U16 where
  bytes : Bytes
deriving DecidableEq, Repr

/-- The `U32` wrapper of `src/number.rs`. -/
structure U32 where
  bytes : Bytes
deriving DecidableEq, Repr

/-- The `I32` wrapper of `src/number.rs`. -/
structure I32 where
  bytes : Bytes
deriving DecidableEq, Repr

/-- The `U64` wrapper of `src/number.rs`. -/
structure U64 where
  bytes : Bytes
deriving DecidableEq, Repr

instance : AsBytes U8 := ⟨U8.bytes⟩
instance : AsBytes U16 := ⟨U16.bytes⟩
instance : AsBytes U32 := ⟨U32.bytes⟩
instance : AsBytes I32 := ⟨I32.bytes⟩
instance : AsBytes U64 := ⟨U64.bytes⟩

/-- The numeric value of a `U8` (`From<U8> for u8`). -/
def U8.value (u : U8) : Nat := fromLe u.bytes

/-- The numeric value of a `U16` (`from_le_bytes`). -/
def U16.value (u : U16) : Nat := fromLe u.bytes

/-- The numeric value of a `U32` (`from_le_bytes`). -/
def U32.value (u : U32) : Nat := fromLe u.bytes

/-- The numeric value of a `U64` (`from_le_bytes`). -/
def U64.value (u : U64) : Nat := fromLe u.bytes

/-- The numeric value of an `I32`: two's-complement signed interpretation. -/
def I32.value (u : I32) : Int :=
  let n := fromLe u.bytes
  if n < 2 ^ 31 then (n : Int) else (n : Int) - 2 ^ 32

/-- Parse a `U8` from the front of the slice (`U8::parse`). -/
def U8.parse (slice : Bytes) : Except Error (ParseResult U8) :=
  (read_slice slice 1).map fun p => ⟨p.remaining, ⟨p.parsed⟩⟩

/-- Parse a `U16` from the front of the slice (`impl_number!` for `U16`). -/
def U16.parse (slice : Bytes) : Except Error (ParseResult U16) :=
  (read_slice slice 2).map fun p => ⟨p.remaining, ⟨p.parsed⟩⟩

/-- Parse a `U32` from the front of the slice (`impl_number!` for `U32`). -/
def U32.parse (slice : Bytes) : Except Error (ParseResult U32) :=
  (read_slice slice 4).map fun p => ⟨p.remaining, ⟨p.parsed⟩⟩

/-- Parse an `I32` from the front of the slice (`impl_number!` for `I32`). -/
def I32.parse (slice : Bytes) : Except Error (ParseResult I32) :=
  (read_slice slice 4).map fun p => ⟨p.remaining, ⟨p.parsed⟩⟩

/-- Parse a `U64` from the front of the slice (`impl_number!` for `U64`). -/
def U64.parse (slice : Bytes) : Except Error (ParseResult U64) :=
  (read_slice slice 8).map fun p => ⟨p.remaining, ⟨p.parsed⟩⟩

/-- The decoded compact-size integer (`src/bsl/len.rs`, struct `Len`). -/
structure Len where
  consumed : Nat
  n : Nat
deriving DecidableEq, Repr

/-- Conversion of a decoded u64 into a `Len`, with the minimality check
(`U64::to_len` in `src/number.rs`). -/
def U64.to_len (u : U64) : Except Error Len :=
  if u.value > 0xFFFFFFFF then .ok ⟨9, u.value⟩ else .error .nonMinimalVarInt

/-- Conversion of a decoded u32 into a `Len`, with the minimality check
(`U32::to_len` in `src/number.rs`). -/
def U32.to_len (u : U32) : Except Error Len :=
  if u.value > 0xFFFF then .ok ⟨5, u.value⟩ else .error .nonMinimalVarInt

/-- Conversion of a decoded u16 into a `Len`, with the minimality check
(`U16::to_len` in `src/number.rs`). -/
def U16.to_len (u : U16) : Except Error Len :=
  if u.value ≥ 0xFD then .ok ⟨3, u.value⟩ else .error .nonMinimalVarInt

/-- The compact-size decoder returning a `Len` by value
(`parse_len` in `src/bsl/len.rs`). -/
def parse_len (slice : Bytes) : Except Error Len :=
  match slice with
  | [] => .error .moreBytesNeeded
  | x :: rest =>
    if x = 0xFF then (U64.parse rest).bind fun p => p.parsed.to_len
    else if x = 0xFE then (U32.parse rest).bind fun p => p.parsed.to_len
    else if x = 0xFD then (U16.parse rest).bind fun p => p.parsed.to_len
    else .ok ⟨1, x⟩

/-- The compact-size decoder that adds to a running `consumed` counter and
returns the value (`scan_len` in `src/bsl/len.rs`); the pair holds the
decoded value and the updated counter. -/
def scan_len (slice : Bytes) (consumed : Nat) : Except Error (Nat × Nat) :=
  match slice with
  | [] => .error .moreBytesNeeded
  | x :: rest =>
    if x = 0xFF then
      if rest.length < 8 then .error .moreBytesNeeded
      else
        let n := fromLe (rest.take 8)
        if n > 0xFFFFFFFF then .ok (n, consumed + 9) else .error .nonMinimalVarInt
    else if x = 0xFE then
      if rest.length < 4 then .error .moreBytesNeeded
      else
        let n := fromLe (rest.take 4)
        if n > 0xFFFF then .ok (n, consumed + 5) else .error .nonMinimalVarInt
    else if x = 0xFD then
      if rest.length < 2 then .error .moreBytesNeeded
      else
        let n := fromLe (rest.take 2)
        if n ≥ 0xFD then .ok (n, consumed + 3) else .error .nonMinimalVarInt
    else .ok (x, consumed + 1)

/-- The count-plus-consumed size of a `Len` (`Len::slice_len`). -/
def Len.slice_len (l : Len) : Nat := l.consumed + l.n

section LenLemmas

theorem read_slice_of_le {s : Bytes} {len : Nat} (h : len ≤ s.length) :
    read_slice s len = .ok ⟨s.drop len, s.take len⟩ := by
  simp [read_slice, Nat.not_lt.mpr h]

theorem read_slice_of_lt {s : Bytes} {len : Nat} (h : s.length < len) :
    read_slice s len = .error .moreBytesNeeded := by
  simp [read_slice, h]

theorem u16_parse_of_le {s : Bytes} (h : 2 ≤ s.length) :
    U16.parse s = .ok ⟨s.drop 2, ⟨s.take 2⟩⟩ := by
  simp [U16.parse, read_slice_of_le h, Except.map]

theorem u32_parse_of_le {s : Bytes} (h : 4 ≤ s.length) :
    U32.parse s = .ok ⟨s.drop 4, ⟨s.take 4⟩⟩ := by
  simp [U32.parse, read_slice_of_le h, Except.map]

theorem u64_parse_of_le {s : Bytes} (h : 8 ≤ s.length) :
    U64.parse s = .ok ⟨s.drop 8, ⟨s.take 8⟩⟩ := by
  simp [U64.parse, read_slice_of_le h, Except.map]

theorem u8_parse_of_le {s : Bytes} (h : 1 ≤ s.length) :
    U8.parse s = .ok ⟨s.drop 1, ⟨s.take 1⟩⟩ := by
  simp [U8.parse, read_slice_of_le h, Except.map]

end LenLemmas

/-- C2: the full section 4.2 contract of the two compact-size decoders:
empty input fails with the insufficient-bytes error; a first byte up to
0xFC is its own value, one byte consumed; the 0xFD / 0xFE / 0xFF markers
read 2 / 4 / 8 little-endian extension bytes, consume 3 / 5 / 9 bytes, and
succeed exactly when the decoded value does not fit a shorter form,
failing with `NonMinimalVarInt` otherwise; missing extension bytes give
the insufficient-bytes error. -/
theorem c2_compact_size_contract :
    ∀ (slice : Bytes) (c0 : Nat),
      (slice = [] →
        parse_len slice = .error .moreBytesNeeded ∧
        scan_len slice c0 = .error .moreBytesNeeded) ∧
      (∀ b rest, slice = b :: rest → b ≤ 0xFC →
        parse_len slice = .ok ⟨1, b⟩ ∧ scan_len slice c0 = .ok (b, c0 + 1)) ∧
      (∀ rest, slice = 0xFD :: rest →
        (rest.length < 2 →
          parse_len slice = .error .moreBytesNeeded ∧
          scan_len slice c0 = .error .moreBytesNeeded) ∧
        (2 ≤ rest.length →
          (0xFD ≤ fromLe (rest.take 2) →
            parse_len slice = .ok ⟨3, fromLe (rest.take 2)⟩ ∧
            scan_len slice c0 = .ok (fromLe (rest.take 2), c0 + 3)) ∧
          (fromLe (rest.take 2) < 0xFD →
            parse_len slice = .error .nonMinimalVarInt ∧
            scan_len slice c0 = .error .nonMinimalVarInt))) ∧
      (∀ rest, slice = 0xFE :: rest →
        (rest.length < 4 →
          parse_len slice = .error .moreBytesNeeded ∧
          scan_len slice c0 = .error .moreBytesNeeded) ∧
        (4 ≤ rest.length →
          (0x10000 ≤ fromLe (rest.take 4) →
            parse_len slice = .ok ⟨5, fromLe (rest.take 4)⟩ ∧
            scan_len slice c0 = .ok (fromLe (rest.take 4), c0 + 5)) ∧
          (fromLe (rest.take 4) < 0x10000 →
            parse_len slice = .error .nonMinimalVarInt ∧
            scan_len slice c0 = .error .nonMinimalVarInt))) ∧
      (∀ rest, slice = 0xFF :: rest →
        (rest.length < 8 →
          parse_len slice = .error .moreBytesNeeded ∧
          scan_len slice c0 = .error .moreBytesNeeded) ∧
        (8 ≤ rest.length →
          (0x100000000 ≤ fromLe (rest.take 8) →
            parse_len slice = .ok ⟨9, fromLe (rest.take 8)⟩ ∧
            scan_len slice c0 = .ok (fromLe (rest.take 8), c0 + 9)) ∧
          (fromLe (rest.take 8) < 0x100000000 →
            parse_len slice = .error .nonMinimalVarInt ∧
            scan_len slice c0 = .error .nonMinimalVarInt))) := by
  intro slice c0
  refine ⟨?_, ?_, ?_, ?_, ?_⟩
  · rintro rfl
    exact ⟨rfl, rfl⟩
  · rintro b rest rfl hb
    constructor
    · have h1 : b ≠ 0xFF := by omega
      have h2 : b ≠ 0xFE := by omega
      have h3 : b ≠ 0xFD := by omega
      simp [parse_len, h1, h2, h3]
    · have h1 : b ≠ 0xFF := by omega
      have h2 : b ≠ 0xFE := by omega
      have h3 : b ≠ 0xFD := by omega
      simp [scan_len, h1, h2, h3]
  · rintro rest rfl
    constructor
    · intro hlt
      constructor
      · simp [parse_len, U16.parse, read_slice_of_lt hlt, Except.map, Except.bind]
      · simp [scan_len, hlt]
    · intro hle
      constructor
      · intro hmin
        constructor
        · simp [parse_len, u16_parse_of_le hle, U16.to_len, U16.value,
            Nat.le_of_lt, hmin, Except.bind]
        · simp [scan_len, Nat.not_lt.mpr hle, hmin]
      · intro hmin
        constructor
        · simp [parse_len, u16_parse_of_le hle, U16.to_len, U16.value,
            Nat.not_le.mpr hmin, Except.bind]
        · simp [scan_len, Nat.not_lt.mpr hle, Nat.not_le.mpr hmin]
  · rintro rest rfl
    constructor
    · intro hlt
      constructor
      · simp [parse_len, U32.parse, read_slice_of_lt hlt, Except.map, Except.bind]
      · simp [scan_len, hlt]
    · intro hle
      constructor
      · intro hmin
        have h : fromLe (rest.take 4) > 0xFFFF := by omega
        constructor
        · simp [parse_len, u32_parse_of_le hle, U32.to_len, U32.value, h,
            Except.bind]
        · simp [scan_len, Nat.not_lt.mpr hle, h]
      · intro hmin
        have h : ¬ fromLe (rest.take 4) > 0xFFFF := by omega
        constructor
        · simp [parse_len, u32_parse_of_le hle, U32.to_len, U32.value, h,
            Except.bind]
        · simp [scan_len, Nat.not_lt.mpr hle, h]
  · rintro rest rfl
    constructor
    · intro hlt
      constructor
      · simp [parse_len, U64.parse, read_slice_of_lt hlt, Except.map, Except.bind]
      · simp [scan_len, hlt]
    · intro hle
      constructor
      · intro hmin
        have h : fromLe (rest.take 8) > 0xFFFFFFFF := by omega
        constructor
        · simp [parse_len, u64_parse_of_le hle, U64.to_len, U64.value, h,
            Except.bind]
        · simp [scan_len, Nat.not_lt.mpr hle, h]
      · intro hmin
        have h : ¬ fromLe (rest.take 8) > 0xFFFFFFFF := by omega
        constructor
        · simp [parse_len, u64_parse_of_le hle, U64.to_len, U64.value, h,
            Except.bind]
        · simp [scan_len, Nat.not_lt.mpr hle, h]

/-- Witness for C2 at concrete inputs: the spec's own example
`parse_len([0xFD, 0xFC, 0x00])` fails with `NonMinimalVarInt`, and a small
first byte decodes to itself. -/
theorem c2_compact_size_contract_witness :
    (parse_len [0xFD, 0xFC, 0] = .error .nonMinimalVarInt ∧
      scan_len [0xFD, 0xFC, 0] 0 = .error .nonMinimalVarInt) ∧
    (parse_len [10] = .ok ⟨1, 10⟩ ∧ scan_len [10] 0 = .ok (10, 1)) := by
  constructor
  · exact (((c2_compact_size_contract [0xFD, 0xFC, 0] 0).2.2.1 [0xFC, 0]
      rfl).2 (by decide)).2 (by decide)
  · exact (c2_compact_size_contract [10] 0).2.1 10 [] rfl (by decide)

/-- Control-flow outcome of a breakable visitor hook (`ControlFlow<()>`). -/
inductive Flow where
  | cont
  | brk
deriving DecidableEq, Repr

/-- The 36-byte previous-output reference (`src/bsl/out_point.rs`). -/
structure OutPoint where
  slice : Bytes
deriving DecidableEq, Repr

/-- A length-prefixed script; `from_` is the offset where the payload
starts (`src/bsl/script.rs`, field `from`). -/
structure Script where
  slice : Bytes
  from_ : Nat
deriving DecidableEq, Repr

/-- One transaction input (section 4.5; historical `src/bsl/tx_in.rs`). -/
structure TxIn where
  slice : Bytes
  prevout : OutPoint
  script_sig : Script
  sequence : Nat
deriving DecidableEq, Repr

/-- The input vector of a transaction (`src/bsl/tx_ins.rs`). -/
structure TxIns where
  slice : Bytes
  n : Nat
deriving DecidableEq, Repr

/-- One transaction output (`src/bsl/tx_out.rs`). -/
structure TxOut where
  slice : Bytes
  value : Nat
  script_pubkey : Script
deriving DecidableEq, Repr

/-- The output vector of a transaction (`src/bsl/tx_outs.rs`). -/
structure TxOuts where
  slice : Bytes
  n : Nat
deriving DecidableEq, Repr

/-- One input's witness stack (section 4.7; historical
`src/bsl/witness.rs`): sub-slice, payload offset, element count. -/
structure Witness where
  slice : Bytes
  from_ : Nat
  n : Nat
deriving DecidableEq, Repr

/-- The per-input array of witness stacks (`src/bsl/witnesses.rs`). -/
structure Witnesses where
  slice : Bytes
  all_empty : Bool
deriving DecidableEq, Repr

/-- A Bitcoin transaction (`src/bsl/transaction.rs`): its sub-slice plus
the optional non-zero inputs-and-outputs byte length, whose presence also
records that the encoding was segwit. -/
structure Transaction where
  slice : Bytes
  inputs_outputs_len : Option Nat
deriving DecidableEq, Repr

/-- The 80-byte block header (`src/bsl/block_header.rs`). -/
structure BlockHeader where
  slice : Bytes
  version : Int
  time : Nat
  bits : Nat
  nonce : Nat
deriving DecidableEq, Repr

/-- A Bitcoin block (`src/bsl/block.rs`). -/
structure Block where
  slice : Bytes
  header : BlockHeader
  total_txs : Nat
deriving DecidableEq, Repr

instance : AsBytes OutPoint := ⟨OutPoint.slice⟩
instance : AsBytes Script := ⟨Script.slice⟩
instance : AsBytes TxIn := ⟨TxIn.slice⟩
instance : AsBytes TxIns := ⟨TxIns.slice⟩
instance : AsBytes TxOut := ⟨TxOut.slice⟩
instance : AsBytes TxOuts := ⟨TxOuts.slice⟩
instance : AsBytes Witness := ⟨Witness.slice⟩
instance : AsBytes Witnesses := ⟨Witnesses.slice⟩
instance : AsBytes Transaction := ⟨Transaction.slice⟩
instance : AsBytes BlockHeader := ⟨BlockHeader.slice⟩
instance : AsBytes Block := ⟨Block.slice⟩

/-- The visitor protocol (`src/visit.rs`, trait `Visitor`): a record of
hooks over a caller state `σ`; the Rust `&mut self` becomes explicit state
passing, and breakable hooks also return a `Flow`. Every hook defaults to
an identity that continues. -/
structure Visitor (σ : Type) where
  visit_block_header : σ → BlockHeader → σ × Flow := fun s _ => (s, .cont)
  visit_block_begin : σ → Nat → σ := fun s _ => s
  visit_transaction : σ → Transaction → σ × Flow := fun s _ => (s, .cont)
  visit_tx_ins : σ → Nat → σ := fun s _ => s
  visit_tx_in : σ → Nat → TxIn → σ × Flow := fun s _ _ => (s, .cont)
  visit_tx_outs : σ → Nat → σ := fun s _ => s
  visit_tx_out : σ → Nat → TxOut → σ × Flow := fun s _ _ => (s, .cont)
  visit_witness : σ → Nat → σ × Flow := fun s _ => (s, .cont)
  visit_witness_total_element : σ → Nat → σ := fun s _ => s
  visit_witness_element : σ → Nat → Bytes → σ := fun s _ _ => s
  visit_witness_end : σ → σ := fun s => s

/-- The all-defaults visitor (`EmptyVisitor`), used by every plain
`parse` entry point. -/
def emptyVisitor : Visitor Unit := {}

/-- Parse the 36-byte out point (`OutPoint::parse`). -/
def OutPoint.parse (slice : Bytes) : Except Error (ParseResult OutPoint) :=
  (read_slice slice 36).map fun p => ⟨p.remaining, ⟨p.parsed⟩⟩

/-- The prevout txid bytes (`OutPoint::txid`). -/
def OutPoint.txid (o : OutPoint) : Bytes := o.slice.take 32

/-- The prevout index (`OutPoint::vout`): little-endian u32 at bytes
32..36. -/
def OutPoint.vout (o : OutPoint) : Nat := fromLe ((o.slice.drop 32).take 4)

/-- Parse a script: compact-size length then that many payload bytes
(`Script::parse`); the stored sub-slice spans both. -/
def Script.parse (slice : Bytes) : Except Error (ParseResult Script) :=
  (parse_len slice).bind fun l =>
    (read_slice (slice.drop l.consumed) l.n).map fun s =>
      ⟨s.remaining, ⟨slice.take (l.consumed + l.n), l.consumed⟩⟩

/-- The script payload without the length marker (`Script::script`). -/
def Script.script (s : Script) : Bytes := s.slice.drop s.from_

/-- Modelled from the spec: the current `TxIn` parser is not among the
files under `src` (only a historical variant of `tx_in.rs` with a retired
error API is). Per section 4.5 a `TxIn` is an `OutPoint`, then a `Script`
(the scriptSig), then a 4-byte little-endian u32 sequence, and its
sub-slice spans all three. -/
def TxIn.parse (slice : Bytes) : Except Error (ParseResult TxIn) :=
  (OutPoint.parse slice).bind fun op =>
    (Script.parse op.remaining).bind fun sc =>
      (U32.parse sc.remaining).map fun sq =>
        let consumed := op.parsed.slice.length + sc.parsed.slice.length + 4
        ⟨sq.remaining, ⟨slice.take consumed, op.parsed, sc.parsed, sq.parsed.value⟩⟩

/-- Inner loop of `TxIns::visit`: parse each input, accumulate consumed
bytes, fire `visit_tx_in`, and short-circuit to `VisitBreak` on a break. -/
def TxIns.loop (v : Visitor σ) (s : σ) (remaining : Bytes) (consumed : Nat)
    (i : Nat) : Nat → σ × Except Error (Nat × Bytes)
  | 0 => (s, .ok (consumed, remaining))
  | count + 1 =>
    match TxIn.parse remaining with
    | .error e => (s, .error e)
    | .ok pr =>
      match v.visit_tx_in s i pr.parsed with
      | (s1, .brk) => (s1, .error .visitBreak)
      | (s1, .cont) =>
        TxIns.loop v s1 pr.remaining (consumed + pr.parsed.slice.length)
          (i + 1) count

/-- Parse the input vector while visiting (`TxIns::visit`). -/
def TxIns.visit (v : Visitor σ) (slice : Bytes) (s : σ) :
    σ × Except Error (ParseResult TxIns) :=
  match parse_len slice with
  | .error e => (s, .error e)
  | .ok l =>
    let total_inputs := l.n
    let s0 := v.visit_tx_ins s total_inputs
    match TxIns.loop v s0 (slice.drop l.consumed) l.consumed 0 total_inputs with
    | (s1, .error e) => (s1, .error e)
    | (s1, .ok (consumed, _)) =>
      (s1, .ok ⟨slice.drop consumed, ⟨slice.take consumed, total_inputs⟩⟩)

/-- Whether the input vector is empty, read off the first stored byte
(`TxIns::is_empty`: `self.slice[0] == 0`; the default for an empty slice
is unreachable on parsed values, whose slice holds at least one byte). -/
def TxIns.is_empty (t : TxIns) : Bool := t.slice.headD 1 == 0

/-- Parse one output: 8-byte little-endian value then the scriptPubKey
(`TxOut::parse`). -/
def TxOut.parse (slice : Bytes) : Except Error (ParseResult TxOut) :=
  (U64.parse slice).bind fun vl =>
    (Script.parse vl.remaining).map fun sc =>
      let consumed := 8 + sc.parsed.slice.length
      ⟨sc.remaining, ⟨slice.take consumed, vl.parsed.value, sc.parsed⟩⟩

/-- Inner loop of `TxOuts::visit`, mirroring `TxIns.loop`. -/
def TxOuts.loop (v : Visitor σ) (s : σ) (remaining : Bytes) (consumed : Nat)
    (i : Nat) : Nat → σ × Except Error (Nat × Bytes)
  | 0 => (s, .ok (consumed, remaining))
  | count + 1 =>
    match TxOut.parse remaining with
    | .error e => (s, .error e)
    | .ok pr =>
      match v.visit_tx_out s i pr.parsed with
      | (s1, .brk) => (s1, .error .visitBreak)
      | (s1, .cont) =>
        TxOuts.loop v s1 pr.remaining (consumed + pr.parsed.slice.length)
          (i + 1) count

/-- Parse the output vector while visiting (`TxOuts::visit`). -/
def TxOuts.visit (v : Visitor σ) (slice : Bytes) (s : σ) :
    σ × Except Error (ParseResult TxOuts) :=
  match parse_len slice with
  | .error e => (s, .error e)
  | .ok l =>
    let total_outputs := l.n
    let s0 := v.visit_tx_outs s total_outputs
    match TxOuts.loop v s0 (slice.drop l.consumed) l.consumed 0 total_outputs with
    | (s1, .error e) => (s1, .error e)
    | (s1, .ok (consumed, _)) =>
      (s1, .ok ⟨slice.drop consumed, ⟨slice.take consumed, total_outputs⟩⟩)

/-- Element loop of the witness-stack parser: each element is a
compact-size length then that many payload bytes, with
`visit_witness_element` fired on the payload. -/
def Witness.loop (v : Visitor σ) (s : σ) (remaining : Bytes) (consumed : Nat)
    (i : Nat) : Nat → σ × Except Error (Nat × Bytes)
  | 0 => (s, .ok (consumed, remaining))
  | count + 1 =>
    match parse_len remaining with
    | .error e => (s, .error e)
    | .ok l =>
      match read_slice (remaining.drop l.consumed) l.n with
      | .error e => (s, .error e)
      | .ok sl =>
        let s1 := v.visit_witness_element s i sl.parsed
        Witness.loop v s1 sl.remaining (consumed + l.slice_len) (i + 1) count

/-- Modelled from the spec: the current `Witness` parser is not among the
files under `src` (only a historical variant of `witness.rs` with a
retired API is). Per section 4.7 one witness stack is a compact-size
element count then that many length-prefixed byte strings, with
`visit_witness_total_element` fired on the count and
`visit_witness_element` on each payload. -/
def Witness.visit (v : Visitor σ) (slice : Bytes) (s : σ) :
    σ × Except Error (ParseResult Witness) :=
  match parse_len slice with
  | .error e => (s, .error e)
  | .ok l =>
    let s0 := v.visit_witness_total_element s l.n
    match Witness.loop v s0 (slice.drop l.consumed) l.consumed 0 l.n with
    | (s1, .error e) => (s1, .error e)
    | (s1, .ok (consumed, _)) =>
      (s1, .ok ⟨slice.drop consumed, ⟨slice.take consumed, l.consumed, l.n⟩⟩)

/-- Whether this witness stack has no elements (`Witness::is_empty`). -/
def Witness.is_empty (w : Witness) : Bool := w.n == 0

/-- Per-input loop of `Witnesses::visit`: fire the breakable
`visit_witness` hook, parse the stack, fire `visit_witness_end`, and track
whether every stack so far was empty. -/
def Witnesses.loop (v : Visitor σ) (s : σ) (remaining : Bytes) (consumed : Nat)
    (all_empty : Bool) (i : Nat) : Nat → σ × Except Error (Nat × Bool)
  | 0 => (s, .ok (consumed, all_empty))
  | count + 1 =>
    match v.visit_witness s i with
    | (s1, .brk) => (s1, .error .visitBreak)
    | (s1, .cont) =>
      match Witness.visit v remaining s1 with
      | (s2, .error e) => (s2, .error e)
      | (s2, .ok w) =>
        let s3 := v.visit_witness_end s2
        Witnesses.loop v s3 w.remaining (consumed + w.parsed.slice.length)
          (all_empty && w.parsed.is_empty) (i + 1) count

/-- Parse exactly `total_inputs` witness stacks back-to-back
(`Witnesses::visit`). -/
def Witnesses.visit (v : Visitor σ) (slice : Bytes) (total_inputs : Nat)
    (s : σ) : σ × Except Error (ParseResult Witnesses) :=
  match Witnesses.loop v s slice 0 true 0 total_inputs with
  | (s1, .error e) => (s1, .error e)
  | (s1, .ok (consumed, all_empty)) =>
    (s1, .ok ⟨slice.drop consumed, ⟨slice.take consumed, all_empty⟩⟩)

/-- The `NonZeroU32::new(x as u32)` conversion: truncate to 32 bits, then
`none` exactly when the truncation is zero. -/
def nonZeroU32New (x : Nat) : Option Nat :=
  if x % 2 ^ 32 = 0 then none else some (x % 2 ^ 32)

/-- The transaction parser-with-visitor (`Transaction::visit`): version,
tentative inputs, the segwit branch on an empty inputs marker (flag byte,
real inputs, outputs, witnesses, the all-empty-witnesses check, locktime)
or the legacy branch (outputs, locktime), then the breakable
`visit_transaction` hook. -/
def Transaction.visit (v : Visitor σ) (slice : Bytes) (s : σ) :
    σ × Except Error (ParseResult Transaction) :=
  match I32.parse slice with
  | .error e => (s, .error e)
  | .ok version =>
    match TxIns.visit v version.remaining s with
    | (s1, .error e) => (s1, .error e)
    | (s1, .ok inputs) =>
      if inputs.parsed.is_empty then
        match U8.parse inputs.remaining with
        | .error e => (s1, .error e)
        | .ok segwit_flag =>
          let segwit_flag_u8 := segwit_flag.parsed.value
          if segwit_flag_u8 = 1 then
            match TxIns.visit v segwit_flag.remaining s1 with
            | (s2, .error e) => (s2, .error e)
            | (s2, .ok inputs2) =>
              match TxOuts.visit v inputs2.remaining s2 with
              | (s3, .error e) => (s3, .error e)
              | (s3, .ok outputs) =>
                match Witnesses.visit v outputs.remaining inputs2.parsed.n s3 with
                | (s4, .error e) => (s4, .error e)
                | (s4, .ok witnesses) =>
                  if !inputs2.parsed.is_empty && witnesses.parsed.all_empty then
                    (s4, .error .segwitFlagWithoutWitnesses)
                  else
                    match U32.parse witnesses.remaining with
                    | .error e => (s4, .error e)
                    | .ok _locktime =>
                      let consumed := 10 + inputs2.consumed + outputs.consumed +
                        witnesses.consumed
                      let inputs_outputs_len := inputs2.parsed.slice.length +
                        outputs.parsed.slice.length
                      let tx : Transaction :=
                        ⟨slice.take consumed, nonZeroU32New inputs_outputs_len⟩
                      match v.visit_transaction s4 tx with
                      | (s5, .cont) => (s5, .ok ⟨slice.drop consumed, tx⟩)
                      | (s5, .brk) => (s5, .error .visitBreak)
          else
            (s1, .error (.unknownSegwitFlag segwit_flag_u8))
      else
        match TxOuts.visit v inputs.remaining s1 with
        | (s2, .error e) => (s2, .error e)
        | (s2, .ok outputs) =>
          match U32.parse outputs.remaining with
          | .error e => (s2, .error e)
          | .ok _locktime =>
            let consumed := inputs.consumed + outputs.consumed + 8
            let tx : Transaction := ⟨slice.take consumed, none⟩
            match v.visit_transaction s2 tx with
            | (s3, .cont) => (s3, .ok ⟨slice.drop consumed, tx⟩)
            | (s3, .brk) => (s3, .error .visitBreak)

/-- The transaction version accessor (`Transaction::version`): the i32 at
the first four stored bytes. -/
def Transaction.version (t : Transaction) : Int := I32.value ⟨t.slice.take 4⟩

/-- The transaction locktime accessor (`Transaction::locktime`): the u32
at the last four stored bytes. -/
def Transaction.locktime (t : Transaction) : Nat :=
  fromLe ((t.slice.drop (t.slice.length - 4)).take 4)

/-- The txid preimage (`Transaction::txid_preimage`): the whole slice for
legacy, or the three ranges version / inputs-and-outputs / locktime of the
stored sub-slice for segwit. -/
def Transaction.txid_preimage (t : Transaction) : Bytes × Bytes × Bytes :=
  match t.inputs_outputs_len with
  | some len => (t.slice.take 4, (t.slice.take (len + 6)).drop 6,
      t.slice.drop (t.slice.length - 4))
  | none => (t.slice, [], [])

/-- The BIP 141 weight (`Transaction::weight`), in wrapping unsigned
64-bit arithmetic. -/
def Transaction.weight (t : Transaction) : Nat :=
  let total_size := t.slice.length
  match t.inputs_outputs_len with
  | some n => ((n + 4 + 4) * 3 + total_size) % 2 ^ 64
  | none => total_size * 4 % 2 ^ 64

/-- The block-header parser-with-visitor (`BlockHeader::visit`): i32
version, 64 opaque hash bytes, u32 time, bits and nonce, then the
breakable `visit_block_header` hook. -/
def BlockHeader.visit (v : Visitor σ) (slice : Bytes) (s : σ) :
    σ × Except Error (ParseResult BlockHeader) :=
  match I32.parse slice with
  | .error e => (s, .error e)
  | .ok version =>
    match read_slice version.remaining 64 with
    | .error e => (s, .error e)
    | .ok hashes =>
      match U32.parse hashes.remaining with
      | .error e => (s, .error e)
      | .ok time =>
        match U32.parse time.remaining with
        | .error e => (s, .error e)
        | .ok bits =>
          match U32.parse bits.remaining with
          | .error e => (s, .error e)
          | .ok nonce =>
            let header : BlockHeader :=
              ⟨slice.take 80, version.parsed.value, time.parsed.value,
                bits.parsed.value, nonce.parsed.value⟩
            match v.visit_block_header s header with
            | (s1, .brk) => (s1, .error .visitBreak)
            | (s1, .cont) => (s1, .ok ⟨nonce.remaining, header⟩)

/-- Transaction loop of `Block::visit`. -/
def Block.loop (v : Visitor σ) (s : σ) (remaining : Bytes) (consumed : Nat) :
    Nat → σ × Except Error Nat
  | 0 => (s, .ok consumed)
  | count + 1 =>
    match Transaction.visit v remaining s with
    | (s1, .error e) => (s1, .error e)
    | (s1, .ok tx) =>
      Block.loop v s1 tx.remaining (consumed + tx.parsed.slice.length) count

/-- The block parser-with-visitor (`Block::visit`): header, compact-size
transaction count, `visit_block_begin`, then that many transactions. -/
def Block.visit (v : Visitor σ) (slice : Bytes) (s : σ) :
    σ × Except Error (ParseResult Block) :=
  match BlockHeader.visit v slice s with
  | (s1, .error e) => (s1, .error e)
  | (s1, .ok header) =>
    match parse_len header.remaining with
    | .error e => (s1, .error e)
    | .ok l =>
      let consumed := l.consumed + 80
      let total_txs := l.n
      let s2 := v.visit_block_begin s1 total_txs
      match Block.loop v s2 (slice.drop consumed) consumed total_txs with
      | (s3, .error e) => (s3, .error e)
      | (s3, .ok consumed1) =>
        (s3, .ok ⟨slice.drop consumed1,
          ⟨slice.take consumed1, header.parsed, total_txs⟩⟩)

/-- Plain parse of the input vector (`TxIns::parse` via the blanket
`Parse` impl: visiting with the empty visitor). -/
def TxIns.parse (slice : Bytes) : Except Error (ParseResult TxIns) :=
  (TxIns.visit emptyVisitor slice ()).2

/-- Plain parse of the output vector. -/
def TxOuts.parse (slice : Bytes) : Except Error (ParseResult TxOuts) :=
  (TxOuts.visit emptyVisitor slice ()).2

/-- Plain parse of one witness stack. -/
def Witness.parse (slice : Bytes) : Except Error (ParseResult Witness) :=
  (Witness.visit emptyVisitor slice ()).2

/-- Plain parse of `total_inputs` witness stacks (`Witnesses::parse`). -/
def Witnesses.parse (slice : Bytes) (total_inputs : Nat) :
    Except Error (ParseResult Witnesses) :=
  (Witnesses.visit emptyVisitor slice total_inputs ()).2

/-- Plain parse of a transaction (`Transaction::parse`). -/
def Transaction.parse (slice : Bytes) : Except Error (ParseResult Transaction) :=
  (Transaction.visit emptyVisitor slice ()).2

/-- Plain parse of a block header (`BlockHeader::parse`). -/
def BlockHeader.parse (slice : Bytes) : Except Error (ParseResult BlockHeader) :=
  (BlockHeader.visit emptyVisitor slice ()).2

/-- Plain parse of a block (`Block::parse`). -/
def Block.parse (slice : Bytes) : Except Error (ParseResult Block) :=
  (Block.visit emptyVisitor slice ()).2

section SoundnessLemmas

/-- The split invariant of a successful parse: the parsed bytes followed by
the remainder reassemble the input exactly. -/
def Sound [AsBytes α] (input : Bytes) (pr : ParseResult α) : Prop :=
  AsBytes.bytes pr.parsed ++ pr.remaining = input

theorem read_slice_ok {s : Bytes} {len : Nat} {pr : ParseResult Bytes}
    (h : read_slice s len = .ok pr) :
    pr.parsed = s.take len ∧ pr.remaining = s.drop len ∧ len ≤ s.length := by
  unfold read_slice at h
  split at h
  · exact absurd h (by simp)
  · injection h with h1
    exact ⟨by rw [← h1], by rw [← h1], by omega⟩

theorem u8_parse_ok {s : Bytes} {pr : ParseResult U8} (h : U8.parse s = .ok pr) :
    pr.parsed.bytes = s.take 1 ∧ pr.remaining = s.drop 1 ∧ 1 ≤ s.length := by
  unfold U8.parse at h
  cases hr : read_slice s 1 with
  | error e => rw [hr] at h; exact absurd h (by simp [Except.map])
  | ok q =>
    rw [hr] at h
    simp only [Except.map, Except.ok.injEq] at h
    obtain ⟨h1, h2, h3⟩ := read_slice_ok hr
    exact ⟨by rw [← h, ← h1], by rw [← h, ← h2], h3⟩

theorem u16_parse_ok {s : Bytes} {pr : ParseResult U16} (h : U16.parse s = .ok pr) :
    pr.parsed.bytes = s.take 2 ∧ pr.remaining = s.drop 2 ∧ 2 ≤ s.length := by
  unfold U16.parse at h
  cases hr : read_slice s 2 with
  | error e => rw [hr] at h; exact absurd h (by simp [Except.map])
  | ok q =>
    rw [hr] at h
    simp only [Except.map, Except.ok.injEq] at h
    obtain ⟨h1, h2, h3⟩ := read_slice_ok hr
    exact ⟨by rw [← h, ← h1], by rw [← h, ← h2], h3⟩

theorem u32_parse_ok {s : Bytes} {pr : ParseResult U32} (h : U32.parse s = .ok pr) :
    pr.parsed.bytes = s.take 4 ∧ pr.remaining = s.drop 4 ∧ 4 ≤ s.length := by
  unfold U32.parse at h
  cases hr : read_slice s 4 with
  | error e => rw [hr] at h; exact absurd h (by simp [Except.map])
  | ok q =>
    rw [hr] at h
    simp only [Except.map, Except.ok.injEq] at h
    obtain ⟨h1, h2, h3⟩ := read_slice_ok hr
    exact ⟨by rw [← h, ← h1], by rw [← h, ← h2], h3⟩

theorem i32_parse_ok {s : Bytes} {pr : ParseResult I32} (h : I32.parse s = .ok pr) :
    pr.parsed.bytes = s.take 4 ∧ pr.remaining = s.drop 4 ∧ 4 ≤ s.length := by
  unfold I32.parse at h
  cases hr : read_slice s 4 with
  | error e => rw [hr] at h; exact absurd h (by simp [Except.map])
  | ok q =>
    rw [hr] at h
    simp only [Except.map, Except.ok.injEq] at h
    obtain ⟨h1, h2, h3⟩ := read_slice_ok hr
    exact ⟨by rw [← h, ← h1], by rw [← h, ← h2], h3⟩

theorem u64_parse_ok {s : Bytes} {pr : ParseResult U64} (h : U64.parse s = .ok pr) :
    pr.parsed.bytes = s.take 8 ∧ pr.remaining = s.drop 8 ∧ 8 ≤ s.length := by
  unfold U64.parse at h
  cases hr : read_slice s 8 with
  | error e => rw [hr] at h; exact absurd h (by simp [Except.map])
  | ok q =>
    rw [hr] at h
    simp only [Except.map, Except.ok.injEq] at h
    obtain ⟨h1, h2, h3⟩ := read_slice_ok hr
    exact ⟨by rw [← h, ← h1], by rw [← h, ← h2], h3⟩

theorem parse_len_ok {s : Bytes} {l : Len} (h : parse_len s = .ok l) :
    1 ≤ l.consumed ∧ l.consumed ≤ s.length := by
  unfold parse_len at h
  match s with
  | [] => exact absurd h (by simp)
  | x :: rest =>
    have hl : (x :: rest).length = rest.length + 1 := rfl
    simp only at h
    split at h
    · cases hp : U64.parse rest with
      | error e => rw [hp] at h; exact absurd h (by simp [Except.bind])
      | ok q =>
        rw [hp] at h
        simp only [Except.bind] at h
        obtain ⟨_, _, hlen⟩ := u64_parse_ok hp
        unfold U64.to_len at h
        split at h
        · injection h with h1
          have hc : l.consumed = 9 := by rw [← h1]
          omega
        · exact absurd h (by simp)
    · split at h
      · cases hp : U32.parse rest with
        | error e => rw [hp] at h; exact absurd h (by simp [Except.bind])
        | ok q =>
          rw [hp] at h
          simp only [Except.bind] at h
          obtain ⟨_, _, hlen⟩ := u32_parse_ok hp
          unfold U32.to_len at h
          split at h
          · injection h with h1
            have hc : l.consumed = 5 := by rw [← h1]
            omega
          · exact absurd h (by simp)
      · split at h
        · cases hp : U16.parse rest with
          | error e => rw [hp] at h; exact absurd h (by simp [Except.bind])
          | ok q =>
            rw [hp] at h
            simp only [Except.bind] at h
            obtain ⟨_, _, hlen⟩ := u16_parse_ok hp
            unfold U16.to_len at h
            split at h
            · injection h with h1
              have hc : l.consumed = 3 := by rw [← h1]
              omega
            · exact absurd h (by simp)
        · injection h with h1
          have hc : l.consumed = 1 := by rw [← h1]
          omega

/-- On a successful compact-size decode, the count is zero exactly when the
first input byte is zero (the fact behind `TxIns::is_empty`). -/
theorem parse_len_head_zero {x : Nat} {rest : Bytes} {l : Len}
    (h : parse_len (x :: rest) = .ok l) : (x = 0 ↔ l.n = 0) := by
  unfold parse_len at h
  simp only at h
  split at h
  · cases hp : U64.parse rest with
    | error e => rw [hp] at h; exact absurd h (by simp [Except.bind])
    | ok q =>
      rw [hp] at h
      simp only [Except.bind] at h
      unfold U64.to_len at h
      split at h
      · injection h with h1
        have hn : l.n = q.parsed.value := by rw [← h1]
        omega
      · exact absurd h (by simp)
  · split at h
    · cases hp : U32.parse rest with
      | error e => rw [hp] at h; exact absurd h (by simp [Except.bind])
      | ok q =>
        rw [hp] at h
        simp only [Except.bind] at h
        unfold U32.to_len at h
        split at h
        · injection h with h1
          have hn : l.n = q.parsed.value := by rw [← h1]
          omega
        · exact absurd h (by simp)
    · split at h
      · cases hp : U16.parse rest with
        | error e => rw [hp] at h; exact absurd h (by simp [Except.bind])
        | ok q =>
          rw [hp] at h
          simp only [Except.bind] at h
          unfold U16.to_len at h
          split at h
          · injection h with h1
            have hn : l.n = q.parsed.value := by rw [← h1]
            omega
          · exact absurd h (by simp)
      · injection h with h1
        have hn : l.n = x := by rw [← h1]
        omega

/-- A successful parse splits its input at offset `c`: the parsed bytes
are the length-`c` front part and the remainder is the back part. -/
def SplitAt (input : Bytes) (c : Nat) (bytes remaining : Bytes) : Prop :=
  c ≤ input.length ∧ bytes = input.take c ∧ remaining = input.drop c

theorem SplitAt.len {input : Bytes} {c : Nat} {bytes remaining : Bytes}
    (h : SplitAt input c bytes remaining) : bytes.length = c := by
  obtain ⟨h1, h2, h3⟩ := h
  subst h2
  simp [List.length_take]
  omega

theorem SplitAt.append {input : Bytes} {c : Nat} {bytes remaining : Bytes}
    (h : SplitAt input c bytes remaining) : bytes ++ remaining = input := by
  obtain ⟨h1, h2, h3⟩ := h
  subst h2
  subst h3
  exact List.take_append_drop c input

theorem SplitAt.chain {input : Bytes} {c1 c2 : Nat} {b1 r1 b2 r2 : Bytes}
    (h1 : SplitAt input c1 b1 r1) (h2 : SplitAt r1 c2 b2 r2) :
    SplitAt input (c1 + c2) (b1 ++ b2) r2 := by
  obtain ⟨ha1, ha2, ha3⟩ := h1
  obtain ⟨hb1, hb2, hb3⟩ := h2
  subst ha2
  subst ha3
  subst hb2
  subst hb3
  refine ⟨?_, ?_, ?_⟩
  · simp [List.length_drop] at hb1
    omega
  · rw [List.take_add]
  · rw [List.drop_drop]

theorem read_slice_split {s : Bytes} {len : Nat} {pr : ParseResult Bytes}
    (h : read_slice s len = .ok pr) : SplitAt s len pr.parsed pr.remaining := by
  obtain ⟨h1, h2, h3⟩ := read_slice_ok h
  exact ⟨h3, h1, h2⟩

theorem out_point_parse_ok {s : Bytes} {pr : ParseResult OutPoint}
    (h : OutPoint.parse s = .ok pr) :
    SplitAt s 36 pr.parsed.slice pr.remaining := by
  unfold OutPoint.parse at h
  cases hr : read_slice s 36 with
  | error e => rw [hr] at h; exact absurd h (by simp [Except.map])
  | ok q =>
    rw [hr] at h
    simp only [Except.map, Except.ok.injEq] at h
    obtain ⟨h1, h2, h3⟩ := read_slice_ok hr
    subst h
    exact ⟨h3, h1, h2⟩

theorem script_parse_ok {s : Bytes} {pr : ParseResult Script}
    (h : Script.parse s = .ok pr) :
    ∃ l : Len, parse_len s = .ok l ∧ pr.parsed.from_ = l.consumed ∧
      SplitAt s (l.consumed + l.n) pr.parsed.slice pr.remaining := by
  unfold Script.parse at h
  cases hl : parse_len s with
  | error e => rw [hl] at h; exact absurd h (by simp [Except.bind])
  | ok l =>
    rw [hl] at h
    simp only [Except.bind] at h
    cases hr : read_slice (s.drop l.consumed) l.n with
    | error e => rw [hr] at h; exact absurd h (by simp [Except.map])
    | ok q =>
      rw [hr] at h
      simp only [Except.map, Except.ok.injEq] at h
      subst h
      obtain ⟨hc1, hc2⟩ := parse_len_ok hl
      obtain ⟨h1, h2, h3⟩ := read_slice_ok hr
      simp only [List.length_drop] at h3
      refine ⟨l, rfl, rfl, ?_, rfl, ?_⟩
      · omega
      · show q.remaining = _
        rw [h2, List.drop_drop]

theorem tx_in_parse_ok {s : Bytes} {pr : ParseResult TxIn}
    (h : TxIn.parse s = .ok pr) :
    SplitAt s pr.parsed.slice.length pr.parsed.slice pr.remaining := by
  unfold TxIn.parse at h
  cases hop : OutPoint.parse s with
  | error e => rw [hop] at h; exact absurd h (by simp [Except.bind])
  | ok op =>
    rw [hop] at h
    simp only [Except.bind] at h
    cases hsc : Script.parse op.remaining with
    | error e => rw [hsc] at h; exact absurd h (by simp [Except.bind])
    | ok sc =>
      rw [hsc] at h
      simp only [Except.bind] at h
      cases hsq : U32.parse sc.remaining with
      | error e => rw [hsq] at h; exact absurd h (by simp [Except.map])
      | ok sq =>
        rw [hsq] at h
        simp only [Except.map, Except.ok.injEq] at h
        subst h
        have s1 := out_point_parse_ok hop
        obtain ⟨l, _, _, s2⟩ := script_parse_ok hsc
        obtain ⟨q1, q2, q3⟩ := u32_parse_ok hsq
        have s3 : SplitAt sc.remaining 4 (sc.remaining.take 4) sq.remaining :=
          ⟨q3, rfl, q2⟩
        have hall := (s1.chain s2).chain s3
        have hlen : op.parsed.slice.length + sc.parsed.slice.length + 4 =
            36 + (l.consumed + l.n) + 4 := by
          rw [s1.len, s2.len]
        simp only
        rw [hlen]
        obtain ⟨hb1, hb2, hb3⟩ := hall
        have htk : s.take (36 + (l.consumed + l.n) + 4) =
            op.parsed.slice ++ sc.parsed.slice ++ sc.remaining.take 4 := by
          rw [hb2]
        constructor
        · rw [List.length_take]
          omega
        constructor
        · rw [List.length_take]
          have : min (36 + (l.consumed + l.n) + 4) s.length =
              36 + (l.consumed + l.n) + 4 := by omega
          rw [this, ← hb2]
        · rw [List.length_take]
          have : min (36 + (l.consumed + l.n) + 4) s.length =
              36 + (l.consumed + l.n) + 4 := by omega
          rw [this, hb3]

theorem tx_out_parse_ok {s : Bytes} {pr : ParseResult TxOut}
    (h : TxOut.parse s = .ok pr) :
    SplitAt s pr.parsed.slice.length pr.parsed.slice pr.remaining := by
  unfold TxOut.parse at h
  cases hv : U64.parse s with
  | error e => rw [hv] at h; exact absurd h (by simp [Except.bind])
  | ok vl =>
    rw [hv] at h
    simp only [Except.bind] at h
    cases hsc : Script.parse vl.remaining with
    | error e => rw [hsc] at h; exact absurd h (by simp [Except.map])
    | ok sc =>
      rw [hsc] at h
      simp only [Except.map, Except.ok.injEq] at h
      subst h
      obtain ⟨v1, v2, v3⟩ := u64_parse_ok hv
      have s1 : SplitAt s 8 (s.take 8) vl.remaining := ⟨v3, rfl, v2⟩
      obtain ⟨l, _, _, s2⟩ := script_parse_ok hsc
      have hall := s1.chain s2
      obtain ⟨hb1, hb2, hb3⟩ := hall
      have hlen : 8 + sc.parsed.slice.length = 8 + (l.consumed + l.n) := by
        rw [s2.len]
      simp only
      rw [hlen]
      constructor
      · rw [List.length_take]
        omega
      constructor
      · rw [List.length_take]
        have : min (8 + (l.consumed + l.n)) s.length =
            8 + (l.consumed + l.n) := by omega
        rw [this, ← hb2]
      · rw [List.length_take]
        have : min (8 + (l.consumed + l.n)) s.length =
            8 + (l.consumed + l.n) := by omega
        rw [this, hb3]

theorem tx_ins_loop_ok {σ : Type} {v : Visitor σ} (slice : Bytes) :
    ∀ {count : Nat} {s s1 : σ} {rem : Bytes} {cons i cons1 : Nat} {rem1 : Bytes},
      TxIns.loop v s rem cons i count = (s1, .ok (cons1, rem1)) →
      rem = slice.drop cons → cons ≤ slice.length →
      cons ≤ cons1 ∧ cons1 ≤ slice.length ∧ rem1 = slice.drop cons1 := by
  intro count
  induction count with
  | zero =>
    intro s s1 rem cons i cons1 rem1 h hrem hcons
    rw [TxIns.loop] at h
    simp only [Prod.mk.injEq, Except.ok.injEq] at h
    obtain ⟨-, hc, hr⟩ := h
    subst hc
    subst hr
    exact ⟨le_refl _, hcons, hrem⟩
  | succ n ih =>
    intro s s1 rem cons i cons1 rem1 h hrem hcons
    rw [TxIns.loop] at h
    split at h
    · simp at h
    · split at h
      · simp at h
      · rename_i pr heq s2 t hflow
        obtain ⟨hb, htk, hdr⟩ := tx_in_parse_ok heq
        have hrem2 : pr.remaining = slice.drop (cons + pr.parsed.slice.length) := by
          rw [hdr, hrem, List.drop_drop]
        have hlen2 : cons + pr.parsed.slice.length ≤ slice.length := by
          rw [hrem] at hb
          simp only [List.length_drop] at hb
          omega
        obtain ⟨ih1, ih2, ih3⟩ := ih h hrem2 hlen2
        exact ⟨by omega, ih2, ih3⟩

theorem tx_ins_visit_ok {σ : Type} {v : Visitor σ} {slice : Bytes} {s : σ}
    {s1 : σ} {pr : ParseResult TxIns}
    (h : TxIns.visit v slice s = (s1, .ok pr)) :
    ∃ (c : Nat) (l : Len), parse_len slice = .ok l ∧ pr.parsed.n = l.n ∧
      l.consumed ≤ c ∧ 1 ≤ c ∧ SplitAt slice c pr.parsed.slice pr.remaining ∧
      (pr.parsed.is_empty = true ↔ l.n = 0) ∧
      (pr.parsed.is_empty = true → c = 1) := by
  unfold TxIns.visit at h
  split at h
  · simp at h
  · rename_i l hl
    simp only at h
    split at h
    · simp at h
    · rename_i s2 q cons1 rem1 hloop
      simp only [Prod.mk.injEq, Except.ok.injEq] at h
      obtain ⟨-, hpr⟩ := h
      subst hpr
      obtain ⟨hc1, hc2⟩ := parse_len_ok hl
      obtain ⟨hlo1, hlo2, hlo3⟩ := tx_ins_loop_ok slice hloop rfl hc2
      match hs : slice, hl with
      | x :: rest, hl =>
        have hx := parse_len_head_zero hl
        have hemp : TxIns.is_empty ⟨(x :: rest).take cons1, l.n⟩ = (x == 0) := by
          unfold TxIns.is_empty
          have hpos : 1 ≤ cons1 := le_trans hc1 hlo1
          obtain ⟨m, hm⟩ : ∃ m, cons1 = m + 1 := ⟨cons1 - 1, by omega⟩
          rw [hm]
          simp
        refine ⟨cons1, l, hl, rfl, hlo1, by omega, ⟨hlo2, rfl, rfl⟩, ?_, ?_⟩
        · rw [hemp]
          simpa using hx
        · intro he
          rw [hemp] at he
          simp at he
          subst he
          have : parse_len (0 :: rest) = .ok ⟨1, 0⟩ := by
            unfold parse_len
            norm_num
          rw [this] at hl
          injection hl with hl1
          have hcs : l.consumed = 1 := by rw [← hl1]
          have hn : l.n = 0 := by rw [← hl1]
          -- the loop ran zero iterations, so cons1 is the initial consumed
          rw [hn] at hloop
          rw [TxIns.loop] at hloop
          simp only [Prod.mk.injEq, Except.ok.injEq] at hloop
          omega

theorem tx_outs_loop_ok {σ : Type} {v : Visitor σ} (slice : Bytes) :
    ∀ {count : Nat} {s s1 : σ} {rem : Bytes} {cons i cons1 : Nat} {rem1 : Bytes},
      TxOuts.loop v s rem cons i count = (s1, .ok (cons1, rem1)) →
      rem = slice.drop cons → cons ≤ slice.length →
      cons ≤ cons1 ∧ cons1 ≤ slice.length ∧ rem1 = slice.drop cons1 := by
  intro count
  induction count with
  | zero =>
    intro s s1 rem cons i cons1 rem1 h hrem hcons
    rw [TxOuts.loop] at h
    simp only [Prod.mk.injEq, Except.ok.injEq] at h
    obtain ⟨-, hc, hr⟩ := h
    subst hc
    subst hr
    exact ⟨le_refl _, hcons, hrem⟩
  | succ n ih =>
    intro s s1 rem cons i cons1 rem1 h hrem hcons
    rw [TxOuts.loop] at h
    split at h
    · simp at h
    · split at h
      · simp at h
      · rename_i pr heq s2 t hflow
        obtain ⟨hb, htk, hdr⟩ := tx_out_parse_ok heq
        have hrem2 : pr.remaining = slice.drop (cons + pr.parsed.slice.length) := by
          rw [hdr, hrem, List.drop_drop]
        have hlen2 : cons + pr.parsed.slice.length ≤ slice.length := by
          rw [hrem] at hb
          simp only [List.length_drop] at hb
          omega
        obtain ⟨ih1, ih2, ih3⟩ := ih h hrem2 hlen2
        exact ⟨by omega, ih2, ih3⟩

theorem tx_outs_visit_ok {σ : Type} {v : Visitor σ} {slice : Bytes} {s : σ}
    {s1 : σ} {pr : ParseResult TxOuts}
    (h : TxOuts.visit v slice s = (s1, .ok pr)) :
    ∃ (c : Nat) (l : Len), parse_len slice = .ok l ∧ pr.parsed.n = l.n ∧
      l.consumed ≤ c ∧ 1 ≤ c ∧ SplitAt slice c pr.parsed.slice pr.remaining := by
  unfold TxOuts.visit at h
  split at h
  · simp at h
  · rename_i l hl
    simp only at h
    split at h
    · simp at h
    · rename_i s2 q cons1 rem1 hloop
      simp only [Prod.mk.injEq, Except.ok.injEq] at h
      obtain ⟨-, hpr⟩ := h
      subst hpr
      obtain ⟨hc1, hc2⟩ := parse_len_ok hl
      obtain ⟨hlo1, hlo2, hlo3⟩ := tx_outs_loop_ok slice hloop rfl hc2
      exact ⟨cons1, l, hl, rfl, hlo1, by omega, ⟨hlo2, rfl, rfl⟩⟩

theorem witness_loop_ok {σ : Type} {v : Visitor σ} (slice : Bytes) :
    ∀ {count : Nat} {s s1 : σ} {rem : Bytes} {cons i cons1 : Nat} {rem1 : Bytes},
      Witness.loop v s rem cons i count = (s1, .ok (cons1, rem1)) →
      rem = slice.drop cons → cons ≤ slice.length →
      cons ≤ cons1 ∧ cons1 ≤ slice.length ∧ rem1 = slice.drop cons1 := by
  intro count
  induction count with
  | zero =>
    intro s s1 rem cons i cons1 rem1 h hrem hcons
    rw [Witness.loop] at h
    simp only [Prod.mk.injEq, Except.ok.injEq] at h
    obtain ⟨-, hc, hr⟩ := h
    subst hc
    subst hr
    exact ⟨le_refl _, hcons, hrem⟩
  | succ n ih =>
    intro s s1 rem cons i cons1 rem1 h hrem hcons
    rw [Witness.loop] at h
    split at h
    · simp at h
    · rename_i l hl
      split at h
      · simp at h
      · rename_i sl hsl
        obtain ⟨hp1, hp2⟩ := parse_len_ok hl
        obtain ⟨hr1, hr2, hr3⟩ := read_slice_ok hsl
        simp only [List.length_drop] at hr3
        have hrem2 : sl.remaining = slice.drop (cons + l.slice_len) := by
          rw [hr2, hrem, List.drop_drop, List.drop_drop]
          unfold Len.slice_len
          ring_nf
        have hlen2 : cons + l.slice_len ≤ slice.length := by
          rw [hrem] at hp2 hr3
          simp only [List.length_drop] at hp2 hr3
          unfold Len.slice_len
          omega
        obtain ⟨ih1, ih2, ih3⟩ := ih h hrem2 hlen2
        have : 0 ≤ l.slice_len := Nat.zero_le _
        exact ⟨by omega, ih2, ih3⟩

theorem witness_visit_ok {σ : Type} {v : Visitor σ} {slice : Bytes} {s : σ}
    {s1 : σ} {pr : ParseResult Witness}
    (h : Witness.visit v slice s = (s1, .ok pr)) :
    ∃ (c : Nat) (l : Len), parse_len slice = .ok l ∧ pr.parsed.n = l.n ∧
      1 ≤ c ∧ SplitAt slice c pr.parsed.slice pr.remaining := by
  unfold Witness.visit at h
  split at h
  · simp at h
  · rename_i l hl
    simp only at h
    split at h
    · simp at h
    · rename_i s2 q cons1 rem1 hloop
      simp only [Prod.mk.injEq, Except.ok.injEq] at h
      obtain ⟨-, hpr⟩ := h
      subst hpr
      obtain ⟨hc1, hc2⟩ := parse_len_ok hl
      obtain ⟨hlo1, hlo2, hlo3⟩ := witness_loop_ok slice hloop rfl hc2
      exact ⟨cons1, l, hl, rfl, by omega, ⟨hlo2, rfl, rfl⟩⟩

theorem witnesses_loop_ok {σ : Type} {v : Visitor σ} (slice : Bytes) :
    ∀ {count : Nat} {s s1 : σ} {rem : Bytes} {cons i : Nat} {ae : Bool}
      {cons1 : Nat} {ae1 : Bool},
      Witnesses.loop v s rem cons ae i count = (s1, .ok (cons1, ae1)) →
      rem = slice.drop cons → cons ≤ slice.length →
      cons ≤ cons1 ∧ cons1 ≤ slice.length := by
  intro count
  induction count with
  | zero =>
    intro s s1 rem cons i ae cons1 ae1 h hrem hcons
    rw [Witnesses.loop] at h
    simp only [Prod.mk.injEq, Except.ok.injEq] at h
    obtain ⟨-, hc, -⟩ := h
    subst hc
    exact ⟨le_refl _, hcons⟩
  | succ n ih =>
    intro s s1 rem cons i ae cons1 ae1 h hrem hcons
    rw [Witnesses.loop] at h
    split at h
    · simp at h
    · split at h
      · simp at h
      · rename_i s2 t hflow s3 w hw
        obtain ⟨c, l, -, -, -, hsp⟩ := witness_visit_ok hw
        have hlenw : w.parsed.slice.length = c := hsp.len
        obtain ⟨hb, htk, hdr⟩ := hsp
        have hrem2 : w.remaining = slice.drop (cons + w.parsed.slice.length) := by
          rw [hdr, hrem, List.drop_drop, hlenw]
        have hlen2 : cons + w.parsed.slice.length ≤ slice.length := by
          rw [hrem] at hb
          simp only [List.length_drop] at hb
          omega
        obtain ⟨ih1, ih2⟩ := ih h hrem2 hlen2
        exact ⟨by omega, ih2⟩

theorem witnesses_visit_ok {σ : Type} {v : Visitor σ} {slice : Bytes}
    {total_inputs : Nat} {s : σ} {s1 : σ} {pr : ParseResult Witnesses}
    (h : Witnesses.visit v slice total_inputs s = (s1, .ok pr)) :
    ∃ c : Nat, SplitAt slice c pr.parsed.slice pr.remaining := by
  unfold Witnesses.visit at h
  split at h
  · simp at h
  · rename_i s2 q cons1 ae1 hloop
    simp only [Prod.mk.injEq, Except.ok.injEq] at h
    obtain ⟨-, hpr⟩ := h
    subst hpr
    obtain ⟨hlo1, hlo2⟩ := witnesses_loop_ok slice hloop (by simp)
      (Nat.zero_le _)
    exact ⟨cons1, hlo2, rfl, rfl⟩

theorem block_header_visit_ok {σ : Type} {v : Visitor σ} {slice : Bytes}
    {s : σ} {s1 : σ} {pr : ParseResult BlockHeader}
    (h : BlockHeader.visit v slice s = (s1, .ok pr)) :
    SplitAt slice 80 pr.parsed.slice pr.remaining := by
  unfold BlockHeader.visit at h
  split at h
  · simp at h
  · rename_i version hversion
    split at h
    · simp at h
    · rename_i hashes hhashes
      split at h
      · simp at h
      · rename_i time htime
        split at h
        · simp at h
        · rename_i bits hbits
          split at h
          · simp at h
          · rename_i nonce hnonce
            simp only at h
            split at h
            · simp at h
            · rename_i s2 hflow
              simp only [Prod.mk.injEq, Except.ok.injEq] at h
              obtain ⟨-, hpr⟩ := h
              subst hpr
              obtain ⟨-, hv2, hv3⟩ := i32_parse_ok hversion
              obtain ⟨-, hh2, hh3⟩ := read_slice_ok hhashes
              obtain ⟨-, ht2, ht3⟩ := u32_parse_ok htime
              obtain ⟨-, hb2, hb3⟩ := u32_parse_ok hbits
              obtain ⟨-, hn2, hn3⟩ := u32_parse_ok hnonce
              have e1 : hashes.remaining = slice.drop 68 := by
                rw [hh2, hv2, List.drop_drop]
              have e2 : time.remaining = slice.drop 72 := by
                rw [ht2, e1, List.drop_drop]
              have e3 : bits.remaining = slice.drop 76 := by
                rw [hb2, e2, List.drop_drop]
              have e4 : nonce.remaining = slice.drop 80 := by
                rw [hn2, e3, List.drop_drop]
              have hlen : 80 ≤ slice.length := by
                rw [e3] at hn3
                simp only [List.length_drop] at hn3
                omega
              exact ⟨hlen, rfl, e4⟩

theorem transaction_visit_ok {σ : Type} {v : Visitor σ} {slice : Bytes}
    {s : σ} {s1 : σ} {pr : ParseResult Transaction}
    (h : Transaction.visit v slice s = (s1, .ok pr)) :
    ∃ c i o : Nat, 1 ≤ i ∧ 1 ≤ o ∧ SplitAt slice c pr.parsed.slice pr.remaining ∧
      ((pr.parsed.inputs_outputs_len = none ∧ c = i + o + 8) ∨
        (∃ w, c = 10 + i + o + w ∧
          pr.parsed.inputs_outputs_len = nonZeroU32New (i + o))) := by
  unfold Transaction.visit at h
  split at h
  · simp at h
  · rename_i version hver
    split at h
    · simp at h
    · rename_i sA inputs hm
      obtain ⟨-, hvrem, hv4⟩ := i32_parse_ok hver
      split at h
      · -- segwit-marker branch: the tentative inputs came out empty
        rename_i hemp
        obtain ⟨cm, lm, hlm, hnm, hlcm, hcm1, hspm, hempm, hempcm⟩ :=
          tx_ins_visit_ok hm
        have hcm : cm = 1 := hempcm hemp
        have hmrem : inputs.remaining = slice.drop 5 := by
          rw [hspm.2.2, hcm, hvrem, List.drop_drop]
        split at h
        · simp at h
        · rename_i segwit_flag hflag
          obtain ⟨-, hf2, hf3⟩ := u8_parse_ok hflag
          have hf6 : segwit_flag.remaining = slice.drop 6 := by
            rw [hf2, hmrem, List.drop_drop]
          have h6len : 6 ≤ slice.length := by
            rw [hmrem] at hf3
            simp only [List.length_drop] at hf3
            omega
          simp only at h
          split at h
          · -- flag byte is 1
            split at h
            · simp at h
            · rename_i sB inputs2 hin2
              split at h
              · simp at h
              · rename_i sC outputs houts
                split at h
                · simp at h
                · rename_i sD witnesses hwit
                  obtain ⟨ci, li, hli, hni, hlci, hci1, hspi, -, -⟩ :=
                    tx_ins_visit_ok hin2
                  obtain ⟨co, lo, hlo, hno, hlco, hco1, hspo⟩ :=
                    tx_outs_visit_ok houts
                  obtain ⟨cw, hspw⟩ := witnesses_visit_ok hwit
                  have hirem : inputs2.remaining = slice.drop (6 + ci) := by
                    rw [hspi.2.2, hf6, List.drop_drop]
                  have horem : outputs.remaining = slice.drop (6 + ci + co) := by
                    rw [hspo.2.2, hirem, List.drop_drop]
                  have hwrem : witnesses.remaining =
                      slice.drop (6 + ci + co + cw) := by
                    rw [hspw.2.2, horem, List.drop_drop]
                  have hleni : inputs2.parsed.slice.length = ci := hspi.len
                  have hleno : outputs.parsed.slice.length = co := hspo.len
                  have hlenw : witnesses.parsed.slice.length = cw := hspw.len
                  split at h
                  · simp at h
                  · split at h
                    · simp at h
                    · rename_i locktime hlock
                      obtain ⟨-, -, hl4⟩ := u32_parse_ok hlock
                      rw [hwrem] at hl4
                      simp only [List.length_drop] at hl4
                      have hboundw : 6 + ci + co + cw ≤ slice.length := by
                        have := hspw.1
                        rw [horem] at this
                        simp only [List.length_drop] at this
                        have h2 := hspo.1
                        rw [hirem] at h2
                        simp only [List.length_drop] at h2
                        have h3 := hspi.1
                        rw [hf6] at h3
                        simp only [List.length_drop] at h3
                        omega
                      split at h
                      case _ sE hcont =>
                        simp only [Prod.mk.injEq, Except.ok.injEq] at h
                        obtain ⟨-, hpr⟩ := h
                        subst hpr
                        have hip : inputs2.consumed = ci := hleni
                        have hop : outputs.consumed = co := hleno
                        have hwp : witnesses.consumed = cw := hlenw
                        rw [hip, hop, hwp]
                        refine ⟨10 + ci + co + cw, ci, co, by omega, by omega,
                          ⟨by omega, rfl, rfl⟩, Or.inr ⟨cw, rfl, ?_⟩⟩
                        simp only [hleni, hleno]
                      case _ sE hbrk => simp at h
          · -- unknown segwit flag: error, contradiction with a success
            simp at h
      · -- legacy branch
        rename_i hemp
        split at h
        · simp at h
        · rename_i sB outputs houts
          obtain ⟨cm, lm, hlm, hnm, hlcm, hcm1, hspm, hempm, hempcm⟩ :=
            tx_ins_visit_ok hm
          obtain ⟨co, lo, hlo, hno, hlco, hco1, hspo⟩ := tx_outs_visit_ok houts
          have hmrem : inputs.remaining = slice.drop (4 + cm) := by
            rw [hspm.2.2, hvrem, List.drop_drop]
          have horem : outputs.remaining = slice.drop (4 + cm + co) := by
            rw [hspo.2.2, hmrem, List.drop_drop]
          split at h
          · simp at h
          · rename_i locktime hlock
            obtain ⟨-, -, hl4⟩ := u32_parse_ok hlock
            rw [horem] at hl4
            simp only [List.length_drop] at hl4
            have hbound : 4 + cm + co ≤ slice.length := by
              have h2 := hspo.1
              rw [hmrem] at h2
              simp only [List.length_drop] at h2
              have h3 := hspm.1
              rw [hvrem] at h3
              simp only [List.length_drop] at h3
              omega
            simp only at h
            split at h
            case _ sC hcont =>
              simp only [Prod.mk.injEq, Except.ok.injEq] at h
              obtain ⟨-, hpr⟩ := h
              subst hpr
              have hip : inputs.consumed = cm := hspm.len
              have hop : outputs.consumed = co := hspo.len
              rw [hip, hop]
              exact ⟨cm + co + 8, cm, co, by omega, by omega,
                ⟨by omega, rfl, rfl⟩, Or.inl ⟨rfl, rfl⟩⟩
            case _ sC hbrk => simp at h

theorem block_loop_ok {σ : Type} {v : Visitor σ} (slice : Bytes) :
    ∀ {count : Nat} {s s1 : σ} {rem : Bytes} {cons cons1 : Nat},
      Block.loop v s rem cons count = (s1, .ok cons1) →
      rem = slice.drop cons → cons ≤ slice.length →
      cons ≤ cons1 ∧ cons1 ≤ slice.length := by
  intro count
  induction count with
  | zero =>
    intro s s1 rem cons cons1 h hrem hcons
    rw [Block.loop] at h
    simp only [Prod.mk.injEq, Except.ok.injEq] at h
    obtain ⟨-, hc⟩ := h
    subst hc
    exact ⟨le_refl _, hcons⟩
  | succ n ih =>
    intro s s1 rem cons cons1 h hrem hcons
    rw [Block.loop] at h
    split at h
    · simp at h
    · rename_i s2 tx htx
      obtain ⟨c, i, o, -, -, hsp, -⟩ := transaction_visit_ok htx
      have hlen : tx.parsed.slice.length = c := hsp.len
      obtain ⟨hb, htk, hdr⟩ := hsp
      have hrem2 : tx.remaining = slice.drop (cons + tx.parsed.slice.length) := by
        rw [hdr, hrem, List.drop_drop, hlen]
      have hlen2 : cons + tx.parsed.slice.length ≤ slice.length := by
        rw [hrem] at hb
        simp only [List.length_drop] at hb
        omega
      obtain ⟨ih1, ih2⟩ := ih h hrem2 hlen2
      exact ⟨by omega, ih2⟩

theorem block_visit_ok {σ : Type} {v : Visitor σ} {slice : Bytes}
    {s : σ} {s1 : σ} {pr : ParseResult Block}
    (h : Block.visit v slice s = (s1, .ok pr)) :
    ∃ c : Nat, 80 ≤ c ∧ SplitAt slice c pr.parsed.slice pr.remaining := by
  unfold Block.visit at h
  split at h
  · simp at h
  · rename_i s2 header hheader
    split at h
    · simp at h
    · rename_i l hl
      have hsph := block_header_visit_ok hheader
      obtain ⟨hc1, hc2⟩ := parse_len_ok hl
      simp only at h
      split at h
      · simp at h
      · rename_i s3 cons1 hloop
        simp only [Prod.mk.injEq, Except.ok.injEq] at h
        obtain ⟨-, hpr⟩ := h
        subst hpr
        have hrem80 : header.remaining = slice.drop 80 := hsph.2.2
        rw [hrem80] at hc2
        simp only [List.length_drop] at hc2
        have h80 := hsph.1
        obtain ⟨hlo1, hlo2⟩ := block_loop_ok slice hloop rfl
          (by omega)
        exact ⟨cons1, by omega, by omega, rfl, rfl⟩

end SoundnessLemmas





/-- The section 8 universal invariant, spelled out: parsed bytes are the
exact prefix of the input of length `consumed`, the remainder is the exact
corresponding suffix, and the two lengths sum to the input length. -/
def PrefixSuffixSplit {α : Type} [AsBytes α] (input : Bytes)
    (pr : ParseResult α) : Prop :=
  (AsBytes.bytes pr.parsed).length + pr.remaining.length = input.length ∧
  input.take (AsBytes.bytes pr.parsed).length = AsBytes.bytes pr.parsed ∧
  input.drop (AsBytes.bytes pr.parsed).length = pr.remaining ∧
  pr.consumed = (AsBytes.bytes pr.parsed).length

theorem SplitAt.toPrefixSuffix {α : Type} [AsBytes α] {input : Bytes} {c : Nat}
    {pr : ParseResult α} (h : SplitAt input c (AsBytes.bytes pr.parsed) pr.remaining) :
    PrefixSuffixSplit input pr := by
  have hlen := h.len
  obtain ⟨h1, h2, h3⟩ := h
  refine ⟨?_, ?_, ?_, rfl⟩
  · rw [h3, hlen, List.length_drop]
    omega
  · rw [hlen, ← h2]
  · rw [hlen, ← h3]

theorem to_pair {σ γ : Type} {p : σ × γ} {y : γ} (h : p.2 = y) : p = (p.1, y) := by
  rw [← h]

/-- C3: for every parser in the library, a successful parse yields a value
whose stored bytes are exactly a prefix of the input, a remainder that is
exactly the corresponding suffix, lengths summing to the input length, and
a consumed count equal to the length of the value's bytes (for `Len`,
which stores no bytes, the consumed count is within the input length). -/
theorem c3_parse_prefix_suffix :
    ∀ input : Bytes,
      (∀ l, parse_len input = .ok l → l.consumed ≤ input.length) ∧
      (∀ pr, OutPoint.parse input = .ok pr → PrefixSuffixSplit input pr) ∧
      (∀ pr, Script.parse input = .ok pr → PrefixSuffixSplit input pr) ∧
      (∀ pr, TxIn.parse input = .ok pr → PrefixSuffixSplit input pr) ∧
      (∀ pr, TxOut.parse input = .ok pr → PrefixSuffixSplit input pr) ∧
      (∀ pr, TxIns.parse input = .ok pr → PrefixSuffixSplit input pr) ∧
      (∀ pr, TxOuts.parse input = .ok pr → PrefixSuffixSplit input pr) ∧
      (∀ pr, Witness.parse input = .ok pr → PrefixSuffixSplit input pr) ∧
      (∀ n pr, Witnesses.parse input n = .ok pr → PrefixSuffixSplit input pr) ∧
      (∀ pr, Transaction.parse input = .ok pr → PrefixSuffixSplit input pr) ∧
      (∀ pr, BlockHeader.parse input = .ok pr → PrefixSuffixSplit input pr) ∧
      (∀ pr, Block.parse input = .ok pr → PrefixSuffixSplit input pr) := by
  intro input
  refine ⟨?_, ?_, ?_, ?_, ?_, ?_, ?_, ?_, ?_, ?_, ?_, ?_⟩
  · intro l h
    exact (parse_len_ok h).2
  · intro pr h
    exact (out_point_parse_ok h).toPrefixSuffix
  · intro pr h
    obtain ⟨l, -, -, hsp⟩ := script_parse_ok h
    exact hsp.toPrefixSuffix
  · intro pr h
    exact (tx_in_parse_ok h).toPrefixSuffix
  · intro pr h
    exact (tx_out_parse_ok h).toPrefixSuffix
  · intro pr h
    obtain ⟨c, l, -, -, -, -, hsp, -, -⟩ := tx_ins_visit_ok (to_pair h)
    exact hsp.toPrefixSuffix
  · intro pr h
    obtain ⟨c, l, -, -, -, -, hsp⟩ := tx_outs_visit_ok (to_pair h)
    exact hsp.toPrefixSuffix
  · intro pr h
    obtain ⟨c, l, -, -, -, hsp⟩ := witness_visit_ok (to_pair h)
    exact hsp.toPrefixSuffix
  · intro n pr h
    obtain ⟨c, hsp⟩ := witnesses_visit_ok (to_pair h)
    exact hsp.toPrefixSuffix
  · intro pr h
    obtain ⟨c, i, o, -, -, hsp, -⟩ := transaction_visit_ok (to_pair h)
    exact hsp.toPrefixSuffix
  · intro pr h
    exact (block_header_visit_ok (to_pair h)).toPrefixSuffix
  · intro pr h
    obtain ⟨c, -, hsp⟩ := block_visit_ok (to_pair h)
    exact hsp.toPrefixSuffix

/-- Witness for C3 at a concrete input: a 37-byte input parsed as an
`OutPoint` splits into a 36-byte prefix and 1-byte suffix. -/
theorem c3_parse_prefix_suffix_witness :
    PrefixSuffixSplit (List.replicate 36 0 ++ [7])
      (⟨[7], ⟨List.replicate 36 0⟩⟩ : ParseResult OutPoint) :=
  (c3_parse_prefix_suffix (List.replicate 36 0 ++ [7])).2.1 _ (by rfl)

/-- C10: successful parses establish the bounds that make the
slice-indexing accessors panic-free: a parsed `Transaction` sub-slice
holds at least 8 bytes (so the 4-byte version prefix and 4-byte locktime
suffix exist in full), a parsed `TxIns` sub-slice holds at least 1 byte
(so reading byte 0 in `is_empty` is safe), and a parsed `OutPoint`
sub-slice is exactly 36 bytes (so `vout` reading bytes 32..36 is safe). -/
theorem c10_accessor_bounds :
    ∀ input : Bytes,
      (∀ pr, Transaction.parse input = .ok pr →
        8 ≤ pr.parsed.slice.length ∧
        (pr.parsed.slice.take 4).length = 4 ∧
        (pr.parsed.slice.drop (pr.parsed.slice.length - 4)).length = 4) ∧
      (∀ pr, TxIns.parse input = .ok pr → 1 ≤ pr.parsed.slice.length) ∧
      (∀ pr, OutPoint.parse input = .ok pr →
        pr.parsed.slice.length = 36 ∧
        ((pr.parsed.slice.drop 32).take 4).length = 4) := by
  intro input
  refine ⟨?_, ?_, ?_⟩
  · intro pr h
    obtain ⟨c, i, o, hi, ho, hsp, hcase⟩ := transaction_visit_ok (to_pair h)
    have hlen : pr.parsed.slice.length = c := hsp.len
    have hc : 8 ≤ c := by
      rcases hcase with ⟨-, hc⟩ | ⟨w, hc, -⟩ <;> omega
    refine ⟨by omega, ?_, ?_⟩
    · rw [List.length_take]
      omega
    · rw [List.length_drop]
      omega
  · intro pr h
    obtain ⟨c, l, -, -, -, hc1, hsp, -, -⟩ := tx_ins_visit_ok (to_pair h)
    have hlen : pr.parsed.slice.length = c := hsp.len
    omega
  · intro pr h
    have hlen : pr.parsed.slice.length = 36 := (out_point_parse_ok h).len
    refine ⟨hlen, ?_⟩
    rw [List.length_take, List.length_drop]
    omega

/-- Witness for C10 at concrete inputs: the 12-byte minimal segwit
transaction and a 36-byte out point. -/
theorem c10_accessor_bounds_witness :
    (8 ≤ ([1, 0, 0, 0, 0, 1, 0, 0, 0, 0, 0, 0] : Bytes).length) ∧
    ((List.replicate 36 0 : Bytes).length = 36) := by
  have h1 := ((c10_accessor_bounds [1, 0, 0, 0, 0, 1, 0, 0, 0, 0, 0, 0]).1
    ⟨[], ⟨[1, 0, 0, 0, 0, 1, 0, 0, 0, 0, 0, 0], some 2⟩⟩ (by rfl)).1
  have h2 := ((c10_accessor_bounds
    (List.replicate 36 0)).2.2
    ⟨[], ⟨List.replicate 36 0⟩⟩ (by rfl)).1
  exact ⟨h1, h2⟩

/-- C5: the txid preimage of a successfully parsed transaction: for a
legacy transaction the whole stored slice with two empty companions; for a
segwit transaction the byte ranges 0..4 (version), 6..6+n (inputs and
outputs, skipping the two marker and flag bytes) and len-4..len
(locktime) of the stored sub-slice, with those ranges in bounds (the input
is bounded by the u32 range, as a Rust slice is by `usize`). -/
theorem c5_txid_preimage :
    ∀ (input : Bytes) (pr : ParseResult Transaction),
      Transaction.parse input = .ok pr → input.length < 2 ^ 32 →
      (pr.parsed.inputs_outputs_len = none →
        pr.parsed.txid_preimage = (pr.parsed.slice, [], [])) ∧
      (∀ n, pr.parsed.inputs_outputs_len = some n →
        pr.parsed.txid_preimage =
          (pr.parsed.slice.take 4, (pr.parsed.slice.drop 6).take n,
            pr.parsed.slice.drop (pr.parsed.slice.length - 4)) ∧
        6 + n + 4 ≤ pr.parsed.slice.length) := by
  intro input pr h hbound
  obtain ⟨c, i, o, hi, ho, hsp, hcase⟩ := transaction_visit_ok (to_pair h)
  have hlen : pr.parsed.slice.length = c := hsp.len
  have hclen : c ≤ input.length := hsp.1
  constructor
  · intro hio
    unfold Transaction.txid_preimage
    rw [hio]
  · intro n hio
    have hio2 := hio
    rcases hcase with ⟨hnone, -⟩ | ⟨w, hc, hsome⟩
    · rw [hnone] at hio
      exact absurd hio (by simp)
    · rw [hsome] at hio
      unfold nonZeroU32New at hio
      split at hio
      · exact absurd hio (by simp)
      · rename_i hmod
        injection hio with hn
        have hio32 : i + o < 2 ^ 32 := by
          have : (2:Nat) ^ 32 = 4294967296 := by norm_num
          omega
        have hn2 : n = i + o := by
          rw [← hn, Nat.mod_eq_of_lt hio32]
        constructor
        · unfold Transaction.txid_preimage
          rw [hio2]
          simp only
          have harg : n + 6 = 6 + n := by omega
          rw [harg, List.drop_take]
          norm_num
        · omega

/-- Witness for C5 at the 12-byte minimal segwit transaction. -/
theorem c5_txid_preimage_witness :
    Transaction.txid_preimage ⟨[1, 0, 0, 0, 0, 1, 0, 0, 9, 9, 9, 9], some 2⟩ =
      ([1, 0, 0, 0], [0, 0], [9, 9, 9, 9]) := by
  have h := ((c5_txid_preimage [1, 0, 0, 0, 0, 1, 0, 0, 9, 9, 9, 9]
    ⟨[], ⟨[1, 0, 0, 0, 0, 1, 0, 0, 9, 9, 9, 9], some 2⟩⟩ (by rfl)
    (by norm_num)).2 2 rfl).1
  rw [h]
  rfl

/-- C8: the weight of a successfully parsed transaction is exact u64
arithmetic (no wrapping occurs in the u32-bounded input range): for
segwit, `(inputs_outputs_len + 8) * 3 + total_size`; for legacy,
`total_size * 4`. -/
theorem c8_weight :
    ∀ (input : Bytes) (pr : ParseResult Transaction),
      Transaction.parse input = .ok pr → input.length < 2 ^ 32 →
      (pr.parsed.inputs_outputs_len = none →
        pr.parsed.weight = pr.parsed.slice.length * 4) ∧
      (∀ n, pr.parsed.inputs_outputs_len = some n →
        pr.parsed.weight = (n + 8) * 3 + pr.parsed.slice.length) := by
  intro input pr h hbound
  obtain ⟨c, i, o, hi, ho, hsp, hcase⟩ := transaction_visit_ok (to_pair h)
  have hlen : pr.parsed.slice.length = c := hsp.len
  have hclen : c ≤ input.length := hsp.1
  have h32 : (2:Nat) ^ 32 = 4294967296 := by norm_num
  have h64 : (2:Nat) ^ 64 = 18446744073709551616 := by norm_num
  constructor
  · intro hio
    unfold Transaction.weight
    rw [hio]
    simp only
    exact Nat.mod_eq_of_lt (by omega)
  · intro n hio
    unfold Transaction.weight
    rw [hio]
    simp only
    have hn32 : n < 2 ^ 32 := by
      rcases hcase with ⟨hnone, -⟩ | ⟨w, hc, hsome⟩
      · rw [hnone] at hio
        exact absurd hio (by simp)
      · rw [hsome] at hio
        unfold nonZeroU32New at hio
        split at hio
        · exact absurd hio (by simp)
        · injection hio with hn
          omega
    have : (n + 4 + 4) * 3 + pr.parsed.slice.length < 2 ^ 64 := by omega
    rw [Nat.mod_eq_of_lt this]

/-- Witness for C8 at the 12-byte minimal segwit transaction:
weight (2 + 8) * 3 + 12 = 42. -/
theorem c8_weight_witness :
    Transaction.weight ⟨[1, 0, 0, 0, 0, 1, 0, 0, 9, 9, 9, 9], some 2⟩ = 42 := by
  have h := (c8_weight [1, 0, 0, 0, 0, 1, 0, 0, 9, 9, 9, 9]
    ⟨[], ⟨[1, 0, 0, 0, 0, 1, 0, 0, 9, 9, 9, 9], some 2⟩⟩ (by rfl)
    (by norm_num)).2 2 rfl
  rw [h]
  rfl

/-- C7: when the tentative input vector is empty (count byte 0x00), the
next byte is read as the segwit flag; any flag other than 0x01 makes the
parse fail with `UnknownSegwitFlag` carrying that byte. -/
theorem c7_unknown_segwit_flag :
    ∀ (slice : Bytes) (version : ParseResult I32) (inputs : ParseResult TxIns)
      (flag : ParseResult U8),
      I32.parse slice = .ok version →
      TxIns.parse version.remaining = .ok inputs →
      inputs.parsed.is_empty = true →
      U8.parse inputs.remaining = .ok flag →
      flag.parsed.value ≠ 1 →
      Transaction.parse slice = .error (.unknownSegwitFlag flag.parsed.value) := by
  intro slice version inputs flag hver hins hemp hflag hne
  unfold TxIns.parse at hins
  unfold Transaction.parse Transaction.visit
  split
  · rename_i e heq
    rw [hver] at heq
    exact absurd heq (by simp)
  · rename_i version2 heq
    rw [hver] at heq
    injection heq with heq
    subst heq
    split
    · rename_i s1 e heq2
      rw [heq2] at hins
      exact absurd hins (by simp)
    · rename_i s1 inputs2 heq2
      rw [heq2] at hins
      simp only at hins
      injection hins with hins
      subst hins
      split
      · split
        · rename_i e heq3
          rw [hflag] at heq3
          exact absurd heq3 (by simp)
        · rename_i flag2 heq3
          rw [hflag] at heq3
          injection heq3 with heq3
          subst heq3
          simp only
          split
          · rename_i h1
            exact absurd h1 hne
          · rfl
      · rename_i hempf
        exact absurd hemp hempf

/-- Witness for C7 at a concrete input: flag byte 0x02 is rejected with
`UnknownSegwitFlag 2`. -/
theorem c7_unknown_segwit_flag_witness :
    Transaction.parse [1, 0, 0, 0, 0, 2, 0, 0, 0, 0, 0, 0] =
      .error (.unknownSegwitFlag 2) := by
  have h := c7_unknown_segwit_flag [1, 0, 0, 0, 0, 2, 0, 0, 0, 0, 0, 0]
    ⟨[0, 2, 0, 0, 0, 0, 0, 0], ⟨[1, 0, 0, 0]⟩⟩
    ⟨[2, 0, 0, 0, 0, 0, 0], ⟨[0], 0⟩⟩
    ⟨[0, 0, 0, 0, 0, 0], ⟨[2]⟩⟩
    (by rfl) (by rfl) (by rfl) (by rfl) (by decide)
  exact h

/-- C6: a segwit-form transaction whose real input vector is non-empty
but whose witness stacks are all empty fails with
`SegwitFlagWithoutWitnesses`. -/
theorem c6_segwit_flag_without_witnesses :
    ∀ (slice : Bytes) (version : ParseResult I32) (inputs : ParseResult TxIns)
      (flag : ParseResult U8) (inputs2 : ParseResult TxIns)
      (outputs : ParseResult TxOuts) (witnesses : ParseResult Witnesses),
      I32.parse slice = .ok version →
      TxIns.parse version.remaining = .ok inputs →
      inputs.parsed.is_empty = true →
      U8.parse inputs.remaining = .ok flag →
      flag.parsed.value = 1 →
      TxIns.parse flag.remaining = .ok inputs2 →
      0 < inputs2.parsed.n →
      TxOuts.parse inputs2.remaining = .ok outputs →
      Witnesses.parse outputs.remaining inputs2.parsed.n = .ok witnesses →
      witnesses.parsed.all_empty = true →
      Transaction.parse slice = .error .segwitFlagWithoutWitnesses := by
  intro slice version inputs flag inputs2 outputs witnesses hver hins hemp
    hflag hfv hin2 hn0 hout hwit hae
  unfold TxIns.parse at hins hin2
  unfold TxOuts.parse at hout
  unfold Witnesses.parse at hwit
  unfold Transaction.parse Transaction.visit
  split
  · rename_i e heq
    rw [hver] at heq
    exact absurd heq (by simp)
  · rename_i version2 heq
    rw [hver] at heq
    injection heq with heq
    subst heq
    split
    · rename_i s1 e heq2
      rw [heq2] at hins
      exact absurd hins (by simp)
    · rename_i s1 inputsB heq2
      rw [heq2] at hins
      simp only at hins
      injection hins with hins
      subst hins
      split
      · split
        · rename_i e heq3
          rw [hflag] at heq3
          exact absurd heq3 (by simp)
        · rename_i flagB heq3
          rw [hflag] at heq3
          injection heq3 with heq3
          subst heq3
          simp only
          split
          · split
            · rename_i s2 e heq4
              rw [heq4] at hin2
              exact absurd hin2 (by simp)
            · rename_i s2 inputs2B heq4
              rw [heq4] at hin2
              simp only at hin2
              injection hin2 with hin2
              subst hin2
              split
              · rename_i s3 e heq5
                rw [heq5] at hout
                exact absurd hout (by simp)
              · rename_i s3 outputsB heq5
                rw [heq5] at hout
                simp only at hout
                injection hout with hout
                subst hout
                split
                · rename_i s4 e heq6
                  rw [heq6] at hwit
                  exact absurd hwit (by simp)
                · rename_i s4 witnessesB heq6
                  rw [heq6] at hwit
                  simp only at hwit
                  injection hwit with hwit
                  subst hwit
                  -- the all-empty check fires: real inputs non-empty
                  obtain ⟨ci, li, hli, hni, -, -, -, hempi, -⟩ :=
                    tx_ins_visit_ok heq4
                  have hne : inputs2B.parsed.is_empty = false := by
                    cases he : inputs2B.parsed.is_empty with
                    | false => rfl
                    | true =>
                      have := hempi.mp he
                      omega
                  split
                  · rfl
                  · rename_i hcond
                    rw [hne, hae] at hcond
                    simp at hcond
          · rename_i h1
            exact absurd hfv h1
      · rename_i hempf
        exact absurd hemp hempf

/-- Witness for C6 at a concrete input: a segwit transaction with one real
input whose only witness stack is empty. -/
theorem c6_segwit_flag_without_witnesses_witness :
    Transaction.parse
      ([1, 0, 0, 0, 0, 1, 1] ++ List.replicate 36 0 ++
        [0, 255, 255, 255, 255, 0, 0, 0, 0, 0, 0]) =
      .error .segwitFlagWithoutWitnesses := by
  have h := c6_segwit_flag_without_witnesses
    ([1, 0, 0, 0, 0, 1, 1] ++ List.replicate 36 0 ++
      [0, 255, 255, 255, 255, 0, 0, 0, 0, 0, 0])
    ⟨[0, 1, 1] ++ List.replicate 36 0 ++
      [0, 255, 255, 255, 255, 0, 0, 0, 0, 0, 0], ⟨[1, 0, 0, 0]⟩⟩
    ⟨[1, 1] ++ List.replicate 36 0 ++
      [0, 255, 255, 255, 255, 0, 0, 0, 0, 0, 0], ⟨[0], 0⟩⟩
    ⟨[1] ++ List.replicate 36 0 ++
      [0, 255, 255, 255, 255, 0, 0, 0, 0, 0, 0], ⟨[1]⟩⟩
    ⟨[0, 0, 0, 0, 0, 0],
      ⟨[1] ++ List.replicate 36 0 ++ [0, 255, 255, 255, 255], 1⟩⟩
    ⟨[0, 0, 0, 0, 0], ⟨[0], 0⟩⟩
    ⟨[0, 0, 0, 0], ⟨[0], true⟩⟩
    (by rfl) (by rfl) (by rfl) (by rfl) (by rfl) (by rfl) (by decide)
    (by rfl) (by rfl) (by rfl)
  exact h

/-- Counterexample to C1: this 12-byte input is in segwit form (marker
0x00, flag 0x01) and its real input count is zero (the `TxIns` parsed at
offset 6 has `n = 0`), yet `Transaction::parse` succeeds. -/
theorem c1_counterexample :
    Transaction.parse [1, 0, 0, 0, 0, 1, 0, 0, 0, 0, 0, 0] =
      .ok ⟨[], ⟨[1, 0, 0, 0, 0, 1, 0, 0, 0, 0, 0, 0], some 2⟩⟩ ∧
    TxIns.parse ([1, 0, 0, 0, 0, 1, 0, 0, 0, 0, 0, 0].drop 6) =
      .ok ⟨[0, 0, 0, 0, 0], ⟨[0], 0⟩⟩ :=
  ⟨rfl, rfl⟩

/-- C1 (amended): a segwit-form transaction with zero real inputs is NOT
rejected: with marker 0x00, flag 0x01, real input count 0x00, output
count 0x00 and any version and locktime bytes, parsing succeeds and
records the transaction as segwit; the all-empty-witness rejection only
applies when the real input count is positive. -/
theorem c1_zero_input_segwit_accepted :
    ∀ a b c d e f g h : Nat,
      Transaction.parse [a, b, c, d, 0, 1, 0, 0, e, f, g, h] =
        .ok ⟨[], ⟨[a, b, c, d, 0, 1, 0, 0, e, f, g, h], some 2⟩⟩ := by
  intro a b c d e f g h
  rfl

section BreakPropagation

/-- Whether a hook result requested a break. -/
def Flow.isBrk : Flow → Bool
  | .brk => true
  | .cont => false

/-- The flag-tracking wrapper of a visitor: it behaves exactly like `v` on
the first state component and records in the second (Boolean) component
whether any breakable hook has returned Break so far. -/
def traced {σ : Type} (v : Visitor σ) : Visitor (σ × Bool) where
  visit_block_header := fun p h =>
    match v.visit_block_header p.1 h with
    | (s2, .cont) => ((s2, p.2), .cont)
    | (s2, .brk) => ((s2, true), .brk)
  visit_block_begin := fun p n => (v.visit_block_begin p.1 n, p.2)
  visit_transaction := fun p t =>
    match v.visit_transaction p.1 t with
    | (s2, .cont) => ((s2, p.2), .cont)
    | (s2, .brk) => ((s2, true), .brk)
  visit_tx_ins := fun p n => (v.visit_tx_ins p.1 n, p.2)
  visit_tx_in := fun p i t =>
    match v.visit_tx_in p.1 i t with
    | (s2, .cont) => ((s2, p.2), .cont)
    | (s2, .brk) => ((s2, true), .brk)
  visit_tx_outs := fun p n => (v.visit_tx_outs p.1 n, p.2)
  visit_tx_out := fun p i t =>
    match v.visit_tx_out p.1 i t with
    | (s2, .cont) => ((s2, p.2), .cont)
    | (s2, .brk) => ((s2, true), .brk)
  visit_witness := fun p i =>
    match v.visit_witness p.1 i with
    | (s2, .cont) => ((s2, p.2), .cont)
    | (s2, .brk) => ((s2, true), .brk)
  visit_witness_total_element := fun p n =>
    (v.visit_witness_total_element p.1 n, p.2)
  visit_witness_element := fun p i b => (v.visit_witness_element p.1 i b, p.2)
  visit_witness_end := fun p => (v.visit_witness_end p.1, p.2)

theorem tx_ins_loop_flag {σ : Type} {v : Visitor σ} :
    ∀ {count : Nat} {rem : Bytes} {cons i : Nat} {s : σ} {b : Bool}
      {s1 : σ} {b1 : Bool} {r : Except Error (Nat × Bytes)},
      TxIns.loop (traced v) (s, b) rem cons i count = ((s1, b1), r) →
      (b = true → b1 = true) ∧
      (b = false → b1 = true → r = .error .visitBreak) := by
  intro count
  induction count with
  | zero =>
    intro rem cons i s b s1 b1 r h
    rw [TxIns.loop] at h
    simp only [Prod.mk.injEq] at h
    obtain ⟨⟨-, hb⟩, hr⟩ := h
    subst hb
    constructor
    · exact fun hb2 => hb2
    · intro h1 h2
      rw [h1] at h2
      exact absurd h2 (by simp)
  | succ n ih =>
    intro rem cons i s b s1 b1 r h
    rw [TxIns.loop] at h
    split at h
    · simp only [Prod.mk.injEq] at h
      obtain ⟨⟨-, hb⟩, hr⟩ := h
      subst hb
      constructor
      · exact fun hb2 => hb2
      · intro h1 h2
        rw [h1] at h2
        exact absurd h2 (by simp)
    · rename_i pr heq
      cases hv : v.visit_tx_in s i pr.parsed with
      | mk s2 f =>
        cases f with
        | brk =>
          have hhook : (traced v).visit_tx_in (s, b) i pr.parsed =
              ((s2, true), .brk) := by
            simp only [traced, hv]
          rw [hhook] at h
          simp only [Prod.mk.injEq] at h
          obtain ⟨⟨-, hb⟩, hr⟩ := h
          subst hb
          exact ⟨fun _ => rfl, fun _ _ => hr.symm⟩
        | cont =>
          have hhook : (traced v).visit_tx_in (s, b) i pr.parsed =
              ((s2, b), .cont) := by
            simp only [traced, hv]
          rw [hhook] at h
          exact ih h

theorem tx_ins_visit_flag {σ : Type} {v : Visitor σ} {slice : Bytes} {s : σ}
    {b : Bool} {s1 : σ} {b1 : Bool} {r : Except Error (ParseResult TxIns)}
    (h : TxIns.visit (traced v) slice (s, b) = ((s1, b1), r)) :
    (b = true → b1 = true) ∧
    (b = false → b1 = true → r = .error .visitBreak) := by
  unfold TxIns.visit at h
  split at h
  · simp only [Prod.mk.injEq] at h
    obtain ⟨⟨-, hb⟩, hr⟩ := h
    subst hb
    refine ⟨fun hb2 => hb2, fun h1 h2 => ?_⟩
    rw [h1] at h2
    exact absurd h2 (by simp)
  · rename_i l hl
    simp only [traced] at h
    split at h
    · rename_i p e heq
      simp only [Prod.mk.injEq] at h
      obtain ⟨hp, hr⟩ := h
      obtain ⟨hf1, hf2⟩ := tx_ins_loop_flag heq
      subst hp
      refine ⟨fun hb2 => hf1 hb2, fun h1 h2 => ?_⟩
      have he := hf2 h1 h2
      injection he with he
      rw [← hr, he]
    · rename_i p q cons1 rem1 heq
      simp only [Prod.mk.injEq] at h
      obtain ⟨hp, hr⟩ := h
      obtain ⟨hf1, hf2⟩ := tx_ins_loop_flag heq
      subst hp
      refine ⟨fun hb2 => hf1 hb2, fun h1 h2 => ?_⟩
      exact absurd (hf2 h1 h2) (by simp)

theorem tx_outs_loop_flag {σ : Type} {v : Visitor σ} :
    ∀ {count : Nat} {rem : Bytes} {cons i : Nat} {s : σ} {b : Bool}
      {s1 : σ} {b1 : Bool} {r : Except Error (Nat × Bytes)},
      TxOuts.loop (traced v) (s, b) rem cons i count = ((s1, b1), r) →
      (b = true → b1 = true) ∧
      (b = false → b1 = true → r = .error .visitBreak) := by
  intro count
  induction count with
  | zero =>
    intro rem cons i s b s1 b1 r h
    rw [TxOuts.loop] at h
    simp only [Prod.mk.injEq] at h
    obtain ⟨⟨-, hb⟩, hr⟩ := h
    subst hb
    refine ⟨fun hb2 => hb2, fun h1 h2 => ?_⟩
    rw [h1] at h2
    exact absurd h2 (by simp)
  | succ n ih =>
    intro rem cons i s b s1 b1 r h
    rw [TxOuts.loop] at h
    split at h
    · simp only [Prod.mk.injEq] at h
      obtain ⟨⟨-, hb⟩, hr⟩ := h
      subst hb
      refine ⟨fun hb2 => hb2, fun h1 h2 => ?_⟩
      rw [h1] at h2
      exact absurd h2 (by simp)
    · rename_i pr heq
      cases hv : v.visit_tx_out s i pr.parsed with
      | mk s2 f =>
        cases f with
        | brk =>
          have hhook : (traced v).visit_tx_out (s, b) i pr.parsed =
              ((s2, true), .brk) := by
            simp only [traced, hv]
          rw [hhook] at h
          simp only [Prod.mk.injEq] at h
          obtain ⟨⟨-, hb⟩, hr⟩ := h
          subst hb
          exact ⟨fun _ => rfl, fun _ _ => hr.symm⟩
        | cont =>
          have hhook : (traced v).visit_tx_out (s, b) i pr.parsed =
              ((s2, b), .cont) := by
            simp only [traced, hv]
          rw [hhook] at h
          exact ih h

theorem tx_outs_visit_flag {σ : Type} {v : Visitor σ} {slice : Bytes} {s : σ}
    {b : Bool} {s1 : σ} {b1 : Bool} {r : Except Error (ParseResult TxOuts)}
    (h : TxOuts.visit (traced v) slice (s, b) = ((s1, b1), r)) :
    (b = true → b1 = true) ∧
    (b = false → b1 = true → r = .error .visitBreak) := by
  unfold TxOuts.visit at h
  split at h
  · simp only [Prod.mk.injEq] at h
    obtain ⟨⟨-, hb⟩, hr⟩ := h
    subst hb
    refine ⟨fun hb2 => hb2, fun h1 h2 => ?_⟩
    rw [h1] at h2
    exact absurd h2 (by simp)
  · rename_i l hl
    simp only [traced] at h
    split at h
    · rename_i p e heq
      simp only [Prod.mk.injEq] at h
      obtain ⟨hp, hr⟩ := h
      obtain ⟨hf1, hf2⟩ := tx_outs_loop_flag heq
      subst hp
      refine ⟨fun hb2 => hf1 hb2, fun h1 h2 => ?_⟩
      have he := hf2 h1 h2
      injection he with he
      rw [← hr, he]
    · rename_i p q cons1 rem1 heq
      simp only [Prod.mk.injEq] at h
      obtain ⟨hp, hr⟩ := h
      obtain ⟨hf1, hf2⟩ := tx_outs_loop_flag heq
      subst hp
      refine ⟨fun hb2 => hf1 hb2, fun h1 h2 => ?_⟩
      exact absurd (hf2 h1 h2) (by simp)

theorem witness_loop_flag {σ : Type} {v : Visitor σ} :
    ∀ {count : Nat} {rem : Bytes} {cons i : Nat} {s : σ} {b : Bool}
      {s1 : σ} {b1 : Bool} {r : Except Error (Nat × Bytes)},
      Witness.loop (traced v) (s, b) rem cons i count = ((s1, b1), r) →
      b1 = b := by
  intro count
  induction count with
  | zero =>
    intro rem cons i s b s1 b1 r h
    rw [Witness.loop] at h
    simp only [Prod.mk.injEq] at h
    exact h.1.2.symm
  | succ n ih =>
    intro rem cons i s b s1 b1 r h
    rw [Witness.loop] at h
    split at h
    · simp only [Prod.mk.injEq] at h
      exact h.1.2.symm
    · rename_i l hl
      split at h
      · simp only [Prod.mk.injEq] at h
        exact h.1.2.symm
      · rename_i sl hsl
        simp only [traced] at h
        exact ih h

theorem witness_visit_flag {σ : Type} {v : Visitor σ} {slice : Bytes} {s : σ}
    {b : Bool} {s1 : σ} {b1 : Bool} {r : Except Error (ParseResult Witness)}
    (h : Witness.visit (traced v) slice (s, b) = ((s1, b1), r)) :
    b1 = b := by
  unfold Witness.visit at h
  split at h
  · simp only [Prod.mk.injEq] at h
    exact h.1.2.symm
  · rename_i l hl
    simp only [traced] at h
    split at h
    · rename_i p e heq
      simp only [Prod.mk.injEq] at h
      obtain ⟨hp, -⟩ := h
      have := witness_loop_flag heq
      rw [hp] at this
      exact this
    · rename_i p q cons1 rem1 heq
      simp only [Prod.mk.injEq] at h
      obtain ⟨hp, -⟩ := h
      have := witness_loop_flag heq
      rw [hp] at this
      exact this

theorem flag_pres {b b2 : Bool} {γ : Type} {w : γ}
    (h1 : b = true → b2 = true)
    (h2 : b = false → b2 = true →
      (Except.ok w : Except Error γ) = .error .visitBreak) :
    b2 = b := by
  cases b with
  | true => rw [h1 rfl]
  | false =>
    cases hb2 : b2 with
    | false => rfl
    | true => exact absurd (h2 rfl hb2) (by simp)

theorem witnesses_loop_flag {σ : Type} {v : Visitor σ} :
    ∀ {count : Nat} {rem : Bytes} {cons i : Nat} {ae : Bool} {s : σ} {b : Bool}
      {s1 : σ} {b1 : Bool} {r : Except Error (Nat × Bool)},
      Witnesses.loop (traced v) (s, b) rem cons ae i count = ((s1, b1), r) →
      (b = true → b1 = true) ∧
      (b = false → b1 = true → r = .error .visitBreak) := by
  intro count
  induction count with
  | zero =>
    intro rem cons i ae s b s1 b1 r h
    rw [Witnesses.loop] at h
    simp only [Prod.mk.injEq] at h
    obtain ⟨⟨-, hb⟩, hr⟩ := h
    subst hb
    refine ⟨fun hb2 => hb2, fun h1 h2 => ?_⟩
    rw [h1] at h2
    exact absurd h2 (by simp)
  | succ n ih =>
    intro rem cons i ae s b s1 b1 r h
    rw [Witnesses.loop] at h
    cases hv : v.visit_witness s i with
    | mk s2 f =>
      cases f with
      | brk =>
        have hhook : (traced v).visit_witness (s, b) i = ((s2, true), .brk) := by
          simp only [traced, hv]
        rw [hhook] at h
        simp only [Prod.mk.injEq] at h
        obtain ⟨⟨-, hb⟩, hr⟩ := h
        subst hb
        exact ⟨fun _ => rfl, fun _ _ => hr.symm⟩
      | cont =>
        have hhook : (traced v).visit_witness (s, b) i = ((s2, b), .cont) := by
          simp only [traced, hv]
        rw [hhook] at h
        simp only at h
        split at h
        · rename_i p e heq
          have hpb : p.2 = b := witness_visit_flag heq
          simp only [Prod.mk.injEq] at h
          obtain ⟨hp, hr⟩ := h
          subst hp
          simp only at hpb
          refine ⟨fun hb2 => by rw [hpb, hb2], fun h1 h2 => ?_⟩
          rw [hpb, h1] at h2
          exact absurd h2 (by simp)
        · rename_i p w heq
          have hpb : p.2 = b := witness_visit_flag heq
          simp only [traced] at h
          rw [show ((v.visit_witness_end p.1, p.2) : σ × Bool) =
            (v.visit_witness_end p.1, b) from by rw [hpb]] at h
          exact ih h

theorem witnesses_visit_flag {σ : Type} {v : Visitor σ} {slice : Bytes}
    {total_inputs : Nat} {s : σ} {b : Bool} {s1 : σ} {b1 : Bool}
    {r : Except Error (ParseResult Witnesses)}
    (h : Witnesses.visit (traced v) slice total_inputs (s, b) = ((s1, b1), r)) :
    (b = true → b1 = true) ∧
    (b = false → b1 = true → r = .error .visitBreak) := by
  unfold Witnesses.visit at h
  split at h
  · rename_i p e heq
    simp only [Prod.mk.injEq] at h
    obtain ⟨hp, hr⟩ := h
    obtain ⟨hf1, hf2⟩ := witnesses_loop_flag heq
    subst hp
    refine ⟨fun hb2 => hf1 hb2, fun h1 h2 => ?_⟩
    have he := hf2 h1 h2
    injection he with he
    rw [← hr, he]
  · rename_i p q cons1 ae1 heq
    simp only [Prod.mk.injEq] at h
    obtain ⟨hp, hr⟩ := h
    obtain ⟨hf1, hf2⟩ := witnesses_loop_flag heq
    subst hp
    refine ⟨fun hb2 => hf1 hb2, fun h1 h2 => ?_⟩
    exact absurd (hf2 h1 h2) (by simp)

theorem block_header_visit_flag {σ : Type} {v : Visitor σ} {slice : Bytes}
    {s : σ} {b : Bool} {s1 : σ} {b1 : Bool}
    {r : Except Error (ParseResult BlockHeader)}
    (h : BlockHeader.visit (traced v) slice (s, b) = ((s1, b1), r)) :
    (b = true → b1 = true) ∧
    (b = false → b1 = true → r = .error .visitBreak) := by
  unfold BlockHeader.visit at h
  split at h
  · simp only [Prod.mk.injEq] at h
    obtain ⟨⟨-, hb⟩, hr⟩ := h
    subst hb
    refine ⟨fun hb2 => hb2, fun h1 h2 => ?_⟩
    rw [h1] at h2
    exact absurd h2 (by simp)
  · rename_i version hver
    split at h
    · simp only [Prod.mk.injEq] at h
      obtain ⟨⟨-, hb⟩, hr⟩ := h
      subst hb
      refine ⟨fun hb2 => hb2, fun h1 h2 => ?_⟩
      rw [h1] at h2
      exact absurd h2 (by simp)
    · rename_i hashes hhashes
      split at h
      · simp only [Prod.mk.injEq] at h
        obtain ⟨⟨-, hb⟩, hr⟩ := h
        subst hb
        refine ⟨fun hb2 => hb2, fun h1 h2 => ?_⟩
        rw [h1] at h2
        exact absurd h2 (by simp)
      · rename_i time htime
        split at h
        · simp only [Prod.mk.injEq] at h
          obtain ⟨⟨-, hb⟩, hr⟩ := h
          subst hb
          refine ⟨fun hb2 => hb2, fun h1 h2 => ?_⟩
          rw [h1] at h2
          exact absurd h2 (by simp)
        · rename_i bits hbits
          split at h
          · simp only [Prod.mk.injEq] at h
            obtain ⟨⟨-, hb⟩, hr⟩ := h
            subst hb
            refine ⟨fun hb2 => hb2, fun h1 h2 => ?_⟩
            rw [h1] at h2
            exact absurd h2 (by simp)
          · rename_i nonce hnonce
            simp only at h
            cases hv : v.visit_block_header s
              ⟨slice.take 80, version.parsed.value, time.parsed.value,
                bits.parsed.value, nonce.parsed.value⟩ with
            | mk s2 f =>
              cases f with
              | brk =>
                have hhook : (traced v).visit_block_header (s, b)
                    ⟨slice.take 80, version.parsed.value, time.parsed.value,
                      bits.parsed.value, nonce.parsed.value⟩ =
                    ((s2, true), .brk) := by
                  simp only [traced, hv]
                rw [hhook] at h
                simp only [Prod.mk.injEq] at h
                obtain ⟨⟨-, hb⟩, hr⟩ := h
                subst hb
                exact ⟨fun _ => rfl, fun _ _ => hr.symm⟩
              | cont =>
                have hhook : (traced v).visit_block_header (s, b)
                    ⟨slice.take 80, version.parsed.value, time.parsed.value,
                      bits.parsed.value, nonce.parsed.value⟩ =
                    ((s2, b), .cont) := by
                  simp only [traced, hv]
                rw [hhook] at h
                simp only [Prod.mk.injEq] at h
                obtain ⟨⟨-, hb⟩, hr⟩ := h
                subst hb
                refine ⟨fun hb2 => hb2, fun h1 h2 => ?_⟩
                rw [h1] at h2
                exact absurd h2 (by simp)

theorem transaction_visit_flag {σ : Type} {v : Visitor σ} {slice : Bytes}
    {s : σ} {b : Bool} {s1 : σ} {b1 : Bool}
    {r : Except Error (ParseResult Transaction)}
    (h : Transaction.visit (traced v) slice (s, b) = ((s1, b1), r)) :
    (b = true → b1 = true) ∧
    (b = false → b1 = true → r = .error .visitBreak) := by
  unfold Transaction.visit at h
  split at h
  · simp only [Prod.mk.injEq] at h
    obtain ⟨⟨-, hb⟩, hr⟩ := h
    subst hb
    refine ⟨fun hb2 => hb2, fun h1 h2 => ?_⟩
    rw [h1] at h2
    exact absurd h2 (by simp)
  · rename_i version hver
    split at h
    · rename_i p e heq
      obtain ⟨pa, pb⟩ := p
      simp only [Prod.mk.injEq] at h
      obtain ⟨⟨-, hb⟩, hr⟩ := h
      obtain ⟨hf1, hf2⟩ := tx_ins_visit_flag heq
      subst hb
      refine ⟨fun hb2 => hf1 hb2, fun h1 h2 => ?_⟩
      have he := hf2 h1 h2
      injection he with he
      rw [← hr, he]
    · rename_i p inputs heq
      obtain ⟨pa, pb⟩ := p
      obtain ⟨hf1, hf2⟩ := tx_ins_visit_flag heq
      have hpb : pb = b := flag_pres hf1 hf2
      rw [hpb] at h
      split at h
      · -- segwit branch
        split at h
        · -- U8 error: terminal
          simp only [Prod.mk.injEq] at h
          obtain ⟨⟨-, hb⟩, hr⟩ := h
          subst hb
          refine ⟨fun hb2 => hb2, fun h1 h2 => ?_⟩
          rw [h1] at h2
          exact absurd h2 (by simp)
        · rename_i segwit_flag hflag
          simp only at h
          split at h
          · -- flag = 1
            split at h
            · rename_i p2 e heq2
              obtain ⟨pa2, pb2⟩ := p2
              simp only [Prod.mk.injEq] at h
              obtain ⟨⟨-, hb⟩, hr⟩ := h
              obtain ⟨hg1, hg2⟩ := tx_ins_visit_flag heq2
              subst hb
              refine ⟨fun hb2 => hg1 hb2, fun h1 h2 => ?_⟩
              have he := hg2 h1 h2
              injection he with he
              rw [← hr, he]
            · rename_i p2 inputs2 heq2
              obtain ⟨pa2, pb2⟩ := p2
              obtain ⟨hg1, hg2⟩ := tx_ins_visit_flag heq2
              have hpb2 : pb2 = b := flag_pres hg1 hg2
              rw [hpb2] at h
              split at h
              · rename_i p3 e heq3
                obtain ⟨pa3, pb3⟩ := p3
                simp only [Prod.mk.injEq] at h
                obtain ⟨⟨-, hb⟩, hr⟩ := h
                obtain ⟨hg1, hg2⟩ := tx_outs_visit_flag heq3
                subst hb
                refine ⟨fun hb2 => hg1 hb2, fun h1 h2 => ?_⟩
                have he := hg2 h1 h2
                injection he with he
                rw [← hr, he]
              · rename_i p3 outputs heq3
                obtain ⟨pa3, pb3⟩ := p3
                obtain ⟨hg1, hg2⟩ := tx_outs_visit_flag heq3
                have hpb3 : pb3 = b := flag_pres hg1 hg2
                rw [hpb3] at h
                split at h
                · rename_i p4 e heq4
                  obtain ⟨pa4, pb4⟩ := p4
                  simp only [Prod.mk.injEq] at h
                  obtain ⟨⟨-, hb⟩, hr⟩ := h
                  obtain ⟨hg1, hg2⟩ := witnesses_visit_flag heq4
                  subst hb
                  refine ⟨fun hb2 => hg1 hb2, fun h1 h2 => ?_⟩
                  have he := hg2 h1 h2
                  injection he with he
                  rw [← hr, he]
                · rename_i p4 witnesses heq4
                  obtain ⟨pa4, pb4⟩ := p4
                  obtain ⟨hg1, hg2⟩ := witnesses_visit_flag heq4
                  have hpb4 : pb4 = b := flag_pres hg1 hg2
                  rw [hpb4] at h
                  split at h
                  · -- all-empty rejection: terminal
                    simp only [Prod.mk.injEq] at h
                    obtain ⟨⟨-, hb⟩, hr⟩ := h
                    subst hb
                    refine ⟨fun hb2 => hb2, fun h1 h2 => ?_⟩
                    rw [h1] at h2
                    exact absurd h2 (by simp)
                  · split at h
                    · -- locktime error: terminal
                      simp only [Prod.mk.injEq] at h
                      obtain ⟨⟨-, hb⟩, hr⟩ := h
                      subst hb
                      refine ⟨fun hb2 => hb2, fun h1 h2 => ?_⟩
                      rw [h1] at h2
                      exact absurd h2 (by simp)
                    · rename_i locktime hlock
                      cases hv : v.visit_transaction pa4
                        ⟨slice.take (10 + inputs2.consumed + outputs.consumed +
                          witnesses.consumed),
                          nonZeroU32New (inputs2.parsed.slice.length +
                            outputs.parsed.slice.length)⟩ with
                      | mk s2 f =>
                        cases f with
                        | brk =>
                          have hhook : (traced v).visit_transaction (pa4, b)
                              ⟨slice.take (10 + inputs2.consumed +
                                outputs.consumed + witnesses.consumed),
                                nonZeroU32New (inputs2.parsed.slice.length +
                                  outputs.parsed.slice.length)⟩ =
                              ((s2, true), .brk) := by
                            simp only [traced, hv]
                          rw [hhook] at h
                          simp only [Prod.mk.injEq] at h
                          obtain ⟨⟨-, hb⟩, hr⟩ := h
                          subst hb
                          exact ⟨fun _ => rfl, fun _ _ => hr.symm⟩
                        | cont =>
                          have hhook : (traced v).visit_transaction (pa4, b)
                              ⟨slice.take (10 + inputs2.consumed +
                                outputs.consumed + witnesses.consumed),
                                nonZeroU32New (inputs2.parsed.slice.length +
                                  outputs.parsed.slice.length)⟩ =
                              ((s2, b), .cont) := by
                            simp only [traced, hv]
                          rw [hhook] at h
                          simp only [Prod.mk.injEq] at h
                          obtain ⟨⟨-, hb⟩, hr⟩ := h
                          subst hb
                          refine ⟨fun hb2 => hb2, fun h1 h2 => ?_⟩
                          rw [h1] at h2
                          exact absurd h2 (by simp)
          · -- unknown segwit flag: terminal
            simp only [Prod.mk.injEq] at h
            obtain ⟨⟨-, hb⟩, hr⟩ := h
            subst hb
            refine ⟨fun hb2 => hb2, fun h1 h2 => ?_⟩
            rw [h1] at h2
            exact absurd h2 (by simp)
      · -- legacy branch
        split at h
        · rename_i p2 e heq2
          obtain ⟨pa2, pb2⟩ := p2
          simp only [Prod.mk.injEq] at h
          obtain ⟨⟨-, hb⟩, hr⟩ := h
          obtain ⟨hg1, hg2⟩ := tx_outs_visit_flag heq2
          subst hb
          refine ⟨fun hb2 => hg1 hb2, fun h1 h2 => ?_⟩
          have he := hg2 h1 h2
          injection he with he
          rw [← hr, he]
        · rename_i p2 outputs heq2
          obtain ⟨pa2, pb2⟩ := p2
          obtain ⟨hg1, hg2⟩ := tx_outs_visit_flag heq2
          have hpb2 : pb2 = b := flag_pres hg1 hg2
          rw [hpb2] at h
          split at h
          · -- locktime error: terminal
            simp only [Prod.mk.injEq] at h
            obtain ⟨⟨-, hb⟩, hr⟩ := h
            subst hb
            refine ⟨fun hb2 => hb2, fun h1 h2 => ?_⟩
            rw [h1] at h2
            exact absurd h2 (by simp)
          · rename_i locktime hlock
            simp only at h
            cases hv : v.visit_transaction pa2
              ⟨slice.take (inputs.consumed + outputs.consumed + 8), none⟩ with
            | mk s2 f =>
              cases f with
              | brk =>
                have hhook : (traced v).visit_transaction (pa2, b)
                    ⟨slice.take (inputs.consumed + outputs.consumed + 8),
                      none⟩ = ((s2, true), .brk) := by
                  simp only [traced, hv]
                rw [hhook] at h
                simp only [Prod.mk.injEq] at h
                obtain ⟨⟨-, hb⟩, hr⟩ := h
                subst hb
                exact ⟨fun _ => rfl, fun _ _ => hr.symm⟩
              | cont =>
                have hhook : (traced v).visit_transaction (pa2, b)
                    ⟨slice.take (inputs.consumed + outputs.consumed + 8),
                      none⟩ = ((s2, b), .cont) := by
                  simp only [traced, hv]
                rw [hhook] at h
                simp only [Prod.mk.injEq] at h
                obtain ⟨⟨-, hb⟩, hr⟩ := h
                subst hb
                refine ⟨fun hb2 => hb2, fun h1 h2 => ?_⟩
                rw [h1] at h2
                exact absurd h2 (by simp)

theorem block_loop_flag {σ : Type} {v : Visitor σ} :
    ∀ {count : Nat} {rem : Bytes} {cons : Nat} {s : σ} {b : Bool}
      {s1 : σ} {b1 : Bool} {r : Except Error Nat},
      Block.loop (traced v) (s, b) rem cons count = ((s1, b1), r) →
      (b = true → b1 = true) ∧
      (b = false → b1 = true → r = .error .visitBreak) := by
  intro count
  induction count with
  | zero =>
    intro rem cons s b s1 b1 r h
    rw [Block.loop] at h
    simp only [Prod.mk.injEq] at h
    obtain ⟨⟨-, hb⟩, hr⟩ := h
    subst hb
    refine ⟨fun hb2 => hb2, fun h1 h2 => ?_⟩
    rw [h1] at h2
    exact absurd h2 (by simp)
  | succ n ih =>
    intro rem cons s b s1 b1 r h
    rw [Block.loop] at h
    split at h
    · rename_i p e heq
      obtain ⟨pa, pb⟩ := p
      simp only [Prod.mk.injEq] at h
      obtain ⟨⟨-, hb⟩, hr⟩ := h
      obtain ⟨hf1, hf2⟩ := transaction_visit_flag heq
      subst hb
      refine ⟨fun hb2 => hf1 hb2, fun h1 h2 => ?_⟩
      have he := hf2 h1 h2
      injection he with he
      rw [← hr, he]
    · rename_i p tx heq
      obtain ⟨pa, pb⟩ := p
      obtain ⟨hf1, hf2⟩ := transaction_visit_flag heq
      have hpb : pb = b := flag_pres hf1 hf2
      subst hpb
      exact ih h

theorem block_visit_flag {σ : Type} {v : Visitor σ} {slice : Bytes}
    {s : σ} {b : Bool} {s1 : σ} {b1 : Bool}
    {r : Except Error (ParseResult Block)}
    (h : Block.visit (traced v) slice (s, b) = ((s1, b1), r)) :
    (b = true → b1 = true) ∧
    (b = false → b1 = true → r = .error .visitBreak) := by
  unfold Block.visit at h
  split at h
  · rename_i p e heq
    obtain ⟨pa, pb⟩ := p
    simp only [Prod.mk.injEq] at h
    obtain ⟨⟨-, hb⟩, hr⟩ := h
    obtain ⟨hf1, hf2⟩ := block_header_visit_flag heq
    subst hb
    refine ⟨fun hb2 => hf1 hb2, fun h1 h2 => ?_⟩
    have he := hf2 h1 h2
    injection he with he
    rw [← hr, he]
  · rename_i p header heq
    obtain ⟨pa, pb⟩ := p
    obtain ⟨hf1, hf2⟩ := block_header_visit_flag heq
    have hpb : pb = b := flag_pres hf1 hf2
    subst hpb
    split at h
    · simp only [Prod.mk.injEq] at h
      obtain ⟨⟨-, hb⟩, hr⟩ := h
      subst hb
      refine ⟨fun hb2 => hb2, fun h1 h2 => ?_⟩
      rw [h1] at h2
      exact absurd h2 (by simp)
    · rename_i l hl
      simp only [traced] at h
      split at h
      · rename_i p2 e heq2
        simp only [Prod.mk.injEq] at h
        obtain ⟨hp, hr⟩ := h
        obtain ⟨hg1, hg2⟩ := block_loop_flag heq2
        subst hp
        refine ⟨fun hb2 => hg1 hb2, fun h1 h2 => ?_⟩
        have he := hg2 h1 h2
        injection he with he
        rw [← hr, he]
      · rename_i p2 cons1 heq2
        simp only [Prod.mk.injEq] at h
        obtain ⟨hp, hr⟩ := h
        obtain ⟨hg1, hg2⟩ := block_loop_flag heq2
        subst hp
        refine ⟨fun hb2 => hg1 hb2, fun h1 h2 => ?_⟩
        exact absurd (hg2 h1 h2) (by simp)

end BreakPropagation




/-- C9: break from any visitor hook short-circuits the entire enclosing
top-level parse to the `VisitBreak` error. Instrumentation: `traced v`
behaves exactly like `v` and additionally latches a Boolean the moment any
breakable hook (block header, transaction input, transaction output,
witness, transaction) returns Break; whenever that flag is set during a
`Transaction` or `Block` parse started with the flag clear, the parse
returns `VisitBreak` and never a success value. -/
theorem c9_break_short_circuits :
    ∀ (σ : Type) (v : Visitor σ) (slice : Bytes) (s : σ) (s1 : σ) (b1 : Bool),
      (∀ r, Transaction.visit (traced v) slice (s, false) = ((s1, b1), r) →
        b1 = true → r = .error .visitBreak) ∧
      (∀ r, Block.visit (traced v) slice (s, false) = ((s1, b1), r) →
        b1 = true → r = .error .visitBreak) := by
  intro σ v slice s s1 b1
  constructor
  · intro r h hb
    exact (transaction_visit_flag h).2 rfl hb
  · intro r h hb
    exact (block_visit_flag h).2 rfl hb

/-- A visitor that requests Break at the block-header hook. -/
def headerBreakVisitor : Visitor Unit where
  visit_block_header := fun s _ => (s, .brk)

/-- Witness for C9: on an 80-byte input, the header-hook break makes the
block parse return `VisitBreak` with the break flag latched. -/
theorem c9_break_short_circuits_witness :
    (Block.visit (traced headerBreakVisitor) (List.replicate 80 0)
      ((), false)).2 = .error .visitBreak := by
  have heval : Block.visit (traced headerBreakVisitor) (List.replicate 80 0)
      ((), false) = (((), true), .error .visitBreak) := by rfl
  exact (c9_break_short_circuits Unit headerBreakVisitor
    (List.replicate 80 0) () () true).2 (.error .visitBreak) heval rfl

section RoundTrip

theorem take_app {l1 l2 : Bytes} {n : Nat} (h : l1.length = n) :
    (l1 ++ l2).take n = l1 := by
  subst h
  exact List.take_left l1 l2

theorem drop_app {l1 l2 : Bytes} {n : Nat} (h : l1.length = n) :
    (l1 ++ l2).drop n = l2 := by
  subst h
  exact List.drop_left l1 l2

theorem take_chunk {s chunk rest : Bytes} {L n : Nat}
    (hsp : SplitAt s L chunk rest) (hLe : L ≤ n) :
    s.take n = chunk ++ rest.take (n - L) := by
  have hlen := hsp.len
  have happ := hsp.append
  rw [← happ, List.take_append_eq_append_take, hlen,
    List.take_of_length_le (by omega)]

theorem read_slice_app {l1 l2 : Bytes} {n : Nat} (h : l1.length = n) :
    read_slice (l1 ++ l2) n = .ok ⟨l2, l1⟩ := by
  unfold read_slice
  rw [if_neg (by simp [List.length_append]; omega)]
  rw [take_app h, drop_app h]

theorem u8_parse_app {l1 l2 : Bytes} (h : l1.length = 1) :
    U8.parse (l1 ++ l2) = .ok ⟨l2, ⟨l1⟩⟩ := by
  unfold U8.parse
  rw [read_slice_app h]
  rfl

theorem u16_parse_app {l1 l2 : Bytes} (h : l1.length = 2) :
    U16.parse (l1 ++ l2) = .ok ⟨l2, ⟨l1⟩⟩ := by
  unfold U16.parse
  rw [read_slice_app h]
  rfl

theorem u32_parse_app {l1 l2 : Bytes} (h : l1.length = 4) :
    U32.parse (l1 ++ l2) = .ok ⟨l2, ⟨l1⟩⟩ := by
  unfold U32.parse
  rw [read_slice_app h]
  rfl

theorem i32_parse_app {l1 l2 : Bytes} (h : l1.length = 4) :
    I32.parse (l1 ++ l2) = .ok ⟨l2, ⟨l1⟩⟩ := by
  unfold I32.parse
  rw [read_slice_app h]
  rfl

theorem u64_parse_app {l1 l2 : Bytes} (h : l1.length = 8) :
    U64.parse (l1 ++ l2) = .ok ⟨l2, ⟨l1⟩⟩ := by
  unfold U64.parse
  rw [read_slice_app h]
  rfl

theorem parse_len_stable {s : Bytes} {l : Len} (h : parse_len s = .ok l) :
    ∀ t, parse_len (s.take l.consumed ++ t) = .ok l := by
  intro t
  unfold parse_len at h
  match s with
  | [] => exact absurd h (by simp)
  | x :: rest =>
    simp only at h
    split at h
    · rename_i hx
      subst hx
      cases hp : U64.parse rest with
      | error e => rw [hp] at h; exact absurd h (by simp [Except.bind])
      | ok q =>
        rw [hp] at h
        simp only [Except.bind] at h
        obtain ⟨hq1, hq2, hq3⟩ := u64_parse_ok hp
        unfold U64.to_len at h
        split at h
        · rename_i hval
          injection h with h1
          have hcons : l.consumed = 9 := by rw [← h1]
          have hn : l.n = q.parsed.value := by rw [← h1]
          rw [hcons]
          have htk : (0xFF :: rest).take 9 = 0xFF :: rest.take 8 := by simp
          rw [htk]
          have : (0xFF :: rest.take 8) ++ t = 0xFF :: (rest.take 8 ++ t) := rfl
          rw [this]
          unfold parse_len
          simp only [if_pos rfl]
          rw [u64_parse_app (by simp [List.length_take]; omega)]
          simp only [Except.bind]
          unfold U64.to_len
          have hvb : (⟨rest.take 8⟩ : U64).value = q.parsed.value := by
            unfold U64.value
            rw [← hq1]
          rw [hvb, if_pos hval, ← h1]
          rw [U64.value, ← hq1]
          rfl
        · exact absurd h (by simp)
    · rename_i hx
      split at h
      · rename_i hx2
        subst hx2
        cases hp : U32.parse rest with
        | error e => rw [hp] at h; exact absurd h (by simp [Except.bind])
        | ok q =>
          rw [hp] at h
          simp only [Except.bind] at h
          obtain ⟨hq1, hq2, hq3⟩ := u32_parse_ok hp
          unfold U32.to_len at h
          split at h
          · rename_i hval
            injection h with h1
            have hcons : l.consumed = 5 := by rw [← h1]
            rw [hcons]
            have htk : (0xFE :: rest).take 5 = 0xFE :: rest.take 4 := by simp
            rw [htk]
            have : (0xFE :: rest.take 4) ++ t = 0xFE :: (rest.take 4 ++ t) := rfl
            rw [this]
            unfold parse_len
            simp only [if_neg (show ¬((0xFE:Nat) = 0xFF) by decide), if_pos rfl]
            rw [u32_parse_app (by simp [List.length_take]; omega)]
            simp only [Except.bind]
            unfold U32.to_len
            have hvb : (⟨rest.take 4⟩ : U32).value = q.parsed.value := by
              unfold U32.value
              rw [← hq1]
            rw [hvb, if_pos hval, ← h1]
            rw [U32.value, ← hq1]
            rfl
          · exact absurd h (by simp)
      · rename_i hx2
        split at h
        · rename_i hx3
          subst hx3
          cases hp : U16.parse rest with
          | error e => rw [hp] at h; exact absurd h (by simp [Except.bind])
          | ok q =>
            rw [hp] at h
            simp only [Except.bind] at h
            obtain ⟨hq1, hq2, hq3⟩ := u16_parse_ok hp
            unfold U16.to_len at h
            split at h
            · rename_i hval
              injection h with h1
              have hcons : l.consumed = 3 := by rw [← h1]
              rw [hcons]
              have htk : (0xFD :: rest).take 3 = 0xFD :: rest.take 2 := by simp
              rw [htk]
              have : (0xFD :: rest.take 2) ++ t = 0xFD :: (rest.take 2 ++ t) := rfl
              rw [this]
              unfold parse_len
              simp only [if_neg (show ¬((0xFD:Nat) = 0xFF) by decide),
                if_neg (show ¬((0xFD:Nat) = 0xFE) by decide), if_pos rfl]
              rw [u16_parse_app (by simp [List.length_take]; omega)]
              simp only [Except.bind]
              unfold U16.to_len
              have hvb : (⟨rest.take 2⟩ : U16).value = q.parsed.value := by
                unfold U16.value
                rw [← hq1]
              rw [hvb, if_pos hval, ← h1]
              simp
            · exact absurd h (by simp)
        · injection h with h1
          have hcons : l.consumed = 1 := by rw [← h1]
          rw [hcons]
          have htk : (x :: rest).take 1 = [x] := by simp
          rw [htk]
          have : ([x] : Bytes) ++ t = x :: t := rfl
          rw [this]
          unfold parse_len
          simp only [if_neg hx, if_neg hx2]
          rename_i hx3
          simp only [if_neg hx3]
          rw [← h1]

theorem out_point_parse_app {l1 l2 : Bytes} (h : l1.length = 36) :
    OutPoint.parse (l1 ++ l2) = .ok ⟨l2, ⟨l1⟩⟩ := by
  unfold OutPoint.parse
  rw [read_slice_app h]
  rfl

theorem script_parse_stable {s : Bytes} {pr : ParseResult Script}
    (h : Script.parse s = .ok pr) :
    ∀ t, Script.parse (pr.parsed.slice ++ t) = .ok ⟨t, pr.parsed⟩ := by
  intro t
  unfold Script.parse at h
  cases hl : parse_len s with
  | error e => rw [hl] at h; exact absurd h (by simp [Except.bind])
  | ok l =>
    rw [hl] at h
    simp only [Except.bind] at h
    cases hr : read_slice (s.drop l.consumed) l.n with
    | error e => rw [hr] at h; exact absurd h (by simp [Except.map])
    | ok q =>
      rw [hr] at h
      simp only [Except.map, Except.ok.injEq] at h
      subst h
      obtain ⟨hc1, hc2⟩ := parse_len_ok hl
      obtain ⟨hq1, hq2, hq3⟩ := read_slice_ok hr
      simp only [List.length_drop] at hq3
      have hP : s.take (l.consumed + l.n) =
          s.take l.consumed ++ (s.drop l.consumed).take l.n := by
        rw [List.take_add]
      have hback : ((s.take l.consumed ++
          ((s.drop l.consumed).take l.n ++ t)).take (l.consumed + l.n)) =
          s.take (l.consumed + l.n) := by
        rw [← List.append_assoc]
        rw [take_app (by
          simp only [List.length_append, List.length_take, List.length_drop]
          omega)]
        exact hP.symm
      show Script.parse (s.take (l.consumed + l.n) ++ t) = _
      conv_lhs => rw [hP, List.append_assoc]
      unfold Script.parse
      rw [parse_len_stable hl ((s.drop l.consumed).take l.n ++ t)]
      simp only [Except.bind]
      rw [drop_app (by simp only [List.length_take]; omega)]
      rw [read_slice_app (by
        simp only [List.length_take, List.length_drop]
        omega)]
      simp only [Except.map]
      rw [hback]

theorem tx_in_parse_stable {s : Bytes} {pr : ParseResult TxIn}
    (h : TxIn.parse s = .ok pr) :
    ∀ t, TxIn.parse (pr.parsed.slice ++ t) = .ok ⟨t, pr.parsed⟩ := by
  intro t
  unfold TxIn.parse at h
  cases hop : OutPoint.parse s with
  | error e => rw [hop] at h; exact absurd h (by simp [Except.bind])
  | ok op =>
    rw [hop] at h
    simp only [Except.bind] at h
    cases hsc : Script.parse op.remaining with
    | error e => rw [hsc] at h; exact absurd h (by simp [Except.bind])
    | ok sc =>
      rw [hsc] at h
      simp only [Except.bind] at h
      cases hsq : U32.parse sc.remaining with
      | error e => rw [hsq] at h; exact absurd h (by simp [Except.map])
      | ok sq =>
        rw [hsq] at h
        simp only [Except.map, Except.ok.injEq] at h
        subst h
        have s1 := out_point_parse_ok hop
        obtain ⟨l, hl, hfrom, s2⟩ := script_parse_ok hsc
        obtain ⟨q1, q2, q3⟩ := u32_parse_ok hsq
        have h36 : op.parsed.slice.length = 36 := s1.len
        have hL2 : sc.parsed.slice.length = l.consumed + l.n := s2.len
        have hP : s.take (op.parsed.slice.length + sc.parsed.slice.length + 4) =
            op.parsed.slice ++ (sc.parsed.slice ++ sc.remaining.take 4) := by
          rw [take_chunk s1 (by omega)]
          congr 1
          have he : op.parsed.slice.length + sc.parsed.slice.length + 4 - 36 =
              (l.consumed + l.n) + 4 := by omega
          rw [he, take_chunk s2 (by omega)]
          congr 1
          congr 1
          omega
        have hback : ((op.parsed.slice ++ (sc.parsed.slice ++
            (sc.remaining.take 4 ++ t))).take (op.parsed.slice.length +
              sc.parsed.slice.length + 4)) =
            s.take (op.parsed.slice.length + sc.parsed.slice.length + 4) := by
          have hsh : op.parsed.slice ++ (sc.parsed.slice ++
              (sc.remaining.take 4 ++ t)) =
              (op.parsed.slice ++ (sc.parsed.slice ++ sc.remaining.take 4)) ++
                t := by
            simp [List.append_assoc]
          rw [hsh]
          rw [take_app (by
            simp only [List.length_append, List.length_take]
            omega)]
          exact hP.symm
        show TxIn.parse (s.take (op.parsed.slice.length +
          sc.parsed.slice.length + 4) ++ t) = _
        conv_lhs => rw [hP, List.append_assoc]
        unfold TxIn.parse
        rw [out_point_parse_app h36]
        simp only [Except.bind]
        rw [List.append_assoc]
        rw [script_parse_stable hsc (sc.remaining.take 4 ++ t)]
        simp only [Except.bind]
        rw [u32_parse_app (by
          simp only [List.length_take]
          omega)]
        simp only [Except.map]
        rw [hback]
        have hv : (⟨sc.remaining.take 4⟩ : U32) = sq.parsed := by
          rw [← q1]
        rw [hv]

theorem tx_out_parse_stable {s : Bytes} {pr : ParseResult TxOut}
    (h : TxOut.parse s = .ok pr) :
    ∀ t, TxOut.parse (pr.parsed.slice ++ t) = .ok ⟨t, pr.parsed⟩ := by
  intro t
  unfold TxOut.parse at h
  cases hv : U64.parse s with
  | error e => rw [hv] at h; exact absurd h (by simp [Except.bind])
  | ok vl =>
    rw [hv] at h
    simp only [Except.bind] at h
    cases hsc : Script.parse vl.remaining with
    | error e => rw [hsc] at h; exact absurd h (by simp [Except.map])
    | ok sc =>
      rw [hsc] at h
      simp only [Except.map, Except.ok.injEq] at h
      subst h
      obtain ⟨v1, v2, v3⟩ := u64_parse_ok hv
      obtain ⟨l, hl, hfrom, s2⟩ := script_parse_ok hsc
      have hL2 : sc.parsed.slice.length = l.consumed + l.n := s2.len
      have s1 : SplitAt s 8 (s.take 8) vl.remaining := ⟨v3, rfl, v2⟩
      have hP : s.take (8 + sc.parsed.slice.length) =
          s.take 8 ++ sc.parsed.slice := by
        rw [take_chunk s1 (by omega)]
        congr 1
        have he : 8 + sc.parsed.slice.length - 8 = sc.parsed.slice.length := by
          omega
        rw [he, hL2]
        exact (s2.2.1).symm
      have hback : ((s.take 8 ++ (sc.parsed.slice ++ t)).take
          (8 + sc.parsed.slice.length)) =
          s.take (8 + sc.parsed.slice.length) := by
        rw [← List.append_assoc]
        rw [take_app (by
          simp only [List.length_append, List.length_take]
          omega)]
        exact hP.symm
      show TxOut.parse (s.take (8 + sc.parsed.slice.length) ++ t) = _
      conv_lhs => rw [hP, List.append_assoc]
      unfold TxOut.parse
      rw [u64_parse_app (by
        simp only [List.length_take]
        omega)]
      simp only [Except.bind]
      rw [script_parse_stable hsc t]
      simp only [Except.map]
      rw [hback]
      have hvv : (⟨s.take 8⟩ : U64) = vl.parsed := by
        rw [← v1]
      rw [hvv]

theorem tx_ins_loop_stable :
    ∀ {count : Nat} {rem : Bytes} {cons i cons1 : Nat} {rem1 : Bytes},
      TxIns.loop emptyVisitor () rem cons i count = ((), .ok (cons1, rem1)) →
      cons ≤ cons1 ∧ rem.take (cons1 - cons) ++ rem1 = rem ∧
      ∀ t, TxIns.loop emptyVisitor () (rem.take (cons1 - cons) ++ t) cons i
        count = ((), .ok (cons1, t)) := by
  intro count
  induction count with
  | zero =>
    intro rem cons i cons1 rem1 h
    rw [TxIns.loop] at h
    simp only [Prod.mk.injEq, Except.ok.injEq] at h
    obtain ⟨-, hc, hr⟩ := h
    subst hc
    subst hr
    refine ⟨le_refl _, by simp, fun t => ?_⟩
    simp only [Nat.sub_self, List.take_zero, List.nil_append]
    rw [TxIns.loop]
  | succ n ih =>
    intro rem cons i cons1 rem1 h
    rw [TxIns.loop] at h
    split at h
    · simp at h
    · rename_i pr heq
      simp only [emptyVisitor] at h
      obtain ⟨h1, h2, h3⟩ := ih h
      have hsp := tx_in_parse_ok heq
      have hL : pr.parsed.slice.length ≤ cons1 - cons := by omega
      have hx : cons1 - cons - pr.parsed.slice.length =
          cons1 - (cons + pr.parsed.slice.length) := by omega
      have htk := take_chunk hsp hL
      rw [hx] at htk
      refine ⟨by omega, ?_, fun t => ?_⟩
      · rw [htk, List.append_assoc, h2]
        exact hsp.append
      · rw [htk, List.append_assoc]
        rw [TxIns.loop]
        rw [tx_in_parse_stable heq
          (pr.remaining.take (cons1 - (cons + pr.parsed.slice.length)) ++ t)]
        simp only [emptyVisitor]
        exact h3 t

theorem tx_ins_visit_stable {s : Bytes} {u : Unit} {pr : ParseResult TxIns}
    (h : TxIns.visit emptyVisitor s () = (u, .ok pr)) :
    ∀ t, TxIns.visit emptyVisitor (pr.parsed.slice ++ t) () =
      ((), .ok ⟨t, pr.parsed⟩) := by
  intro t
  unfold TxIns.visit at h
  split at h
  · simp at h
  · rename_i l hl
    simp only [emptyVisitor] at h
    split at h
    · simp at h
    · rename_i p q cons1 rem1 heq
      simp only [Prod.mk.injEq, Except.ok.injEq] at h
      obtain ⟨-, hpr⟩ := h
      subst hpr
      obtain ⟨hc1, hc2⟩ := parse_len_ok hl
      obtain ⟨hb1, hb2, hb3⟩ := tx_ins_loop_ok s heq rfl hc2
      obtain ⟨hla, hlb, hlc⟩ := tx_ins_loop_stable heq
      have hsp0 : SplitAt s l.consumed (s.take l.consumed)
          (s.drop l.consumed) := ⟨hc2, rfl, rfl⟩
      have htk := take_chunk hsp0 (by omega : l.consumed ≤ cons1)
      have hback : ((s.take cons1 ++ t).take cons1) = s.take cons1 := by
        rw [take_app (by simp only [List.length_take]; omega)]
      have hdrop : ((s.take cons1 ++ t).drop cons1) = t := by
        rw [drop_app (by simp only [List.length_take]; omega)]
      show TxIns.visit emptyVisitor (s.take cons1 ++ t) () = _
      conv_lhs => rw [htk, List.append_assoc]
      unfold TxIns.visit
      rw [parse_len_stable hl
        ((s.drop l.consumed).take (cons1 - l.consumed) ++ t)]
      simp only [emptyVisitor]
      rw [drop_app (by simp only [List.length_take]; omega)]
      simp only [emptyVisitor] at hlc
      rw [hlc t]
      simp only
      rw [show ((s.take l.consumed ++
        ((s.drop l.consumed).take (cons1 - l.consumed) ++ t)) : Bytes) =
        s.take cons1 ++ t from by rw [← List.append_assoc, ← htk]]
      rw [hback, hdrop]

theorem tx_outs_loop_stable :
    ∀ {count : Nat} {rem : Bytes} {cons i cons1 : Nat} {rem1 : Bytes},
      TxOuts.loop emptyVisitor () rem cons i count = ((), .ok (cons1, rem1)) →
      cons ≤ cons1 ∧ rem.take (cons1 - cons) ++ rem1 = rem ∧
      ∀ t, TxOuts.loop emptyVisitor () (rem.take (cons1 - cons) ++ t) cons i
        count = ((), .ok (cons1, t)) := by
  intro count
  induction count with
  | zero =>
    intro rem cons i cons1 rem1 h
    rw [TxOuts.loop] at h
    simp only [Prod.mk.injEq, Except.ok.injEq] at h
    obtain ⟨-, hc, hr⟩ := h
    subst hc
    subst hr
    refine ⟨le_refl _, by simp, fun t => ?_⟩
    simp only [Nat.sub_self, List.take_zero, List.nil_append]
    rw [TxOuts.loop]
  | succ n ih =>
    intro rem cons i cons1 rem1 h
    rw [TxOuts.loop] at h
    split at h
    · simp at h
    · rename_i pr heq
      simp only [emptyVisitor] at h
      obtain ⟨h1, h2, h3⟩ := ih h
      have hsp := tx_out_parse_ok heq
      have hL : pr.parsed.slice.length ≤ cons1 - cons := by omega
      have hx : cons1 - cons - pr.parsed.slice.length =
          cons1 - (cons + pr.parsed.slice.length) := by omega
      have htk := take_chunk hsp hL
      rw [hx] at htk
      refine ⟨by omega, ?_, fun t => ?_⟩
      · rw [htk, List.append_assoc, h2]
        exact hsp.append
      · rw [htk, List.append_assoc]
        rw [TxOuts.loop]
        rw [tx_out_parse_stable heq
          (pr.remaining.take (cons1 - (cons + pr.parsed.slice.length)) ++ t)]
        simp only [emptyVisitor]
        exact h3 t

theorem tx_outs_visit_stable {s : Bytes} {u : Unit} {pr : ParseResult TxOuts}
    (h : TxOuts.visit emptyVisitor s () = (u, .ok pr)) :
    ∀ t, TxOuts.visit emptyVisitor (pr.parsed.slice ++ t) () =
      ((), .ok ⟨t, pr.parsed⟩) := by
  intro t
  unfold TxOuts.visit at h
  split at h
  · simp at h
  · rename_i l hl
    simp only [emptyVisitor] at h
    split at h
    · simp at h
    · rename_i p q cons1 rem1 heq
      simp only [Prod.mk.injEq, Except.ok.injEq] at h
      obtain ⟨-, hpr⟩ := h
      subst hpr
      obtain ⟨hc1, hc2⟩ := parse_len_ok hl
      obtain ⟨hb1, hb2, hb3⟩ := tx_outs_loop_ok s heq rfl hc2
      obtain ⟨hla, hlb, hlc⟩ := tx_outs_loop_stable heq
      have hsp0 : SplitAt s l.consumed (s.take l.consumed)
          (s.drop l.consumed) := ⟨hc2, rfl, rfl⟩
      have htk := take_chunk hsp0 (by omega : l.consumed ≤ cons1)
      have hback : ((s.take cons1 ++ t).take cons1) = s.take cons1 := by
        rw [take_app (by simp only [List.length_take]; omega)]
      have hdrop : ((s.take cons1 ++ t).drop cons1) = t := by
        rw [drop_app (by simp only [List.length_take]; omega)]
      show TxOuts.visit emptyVisitor (s.take cons1 ++ t) () = _
      conv_lhs => rw [htk, List.append_assoc]
      unfold TxOuts.visit
      rw [parse_len_stable hl
        ((s.drop l.consumed).take (cons1 - l.consumed) ++ t)]
      simp only [emptyVisitor]
      rw [drop_app (by simp only [List.length_take]; omega)]
      simp only [emptyVisitor] at hlc
      rw [hlc t]
      simp only
      rw [show ((s.take l.consumed ++
        ((s.drop l.consumed).take (cons1 - l.consumed) ++ t)) : Bytes) =
        s.take cons1 ++ t from by rw [← List.append_assoc, ← htk]]
      rw [hback, hdrop]

theorem witness_loop_stable :
    ∀ {count : Nat} {rem : Bytes} {cons i cons1 : Nat} {rem1 : Bytes},
      Witness.loop emptyVisitor () rem cons i count = ((), .ok (cons1, rem1)) →
      cons ≤ cons1 ∧ rem.take (cons1 - cons) ++ rem1 = rem ∧
      ∀ t, Witness.loop emptyVisitor () (rem.take (cons1 - cons) ++ t) cons i
        count = ((), .ok (cons1, t)) := by
  intro count
  induction count with
  | zero =>
    intro rem cons i cons1 rem1 h
    rw [Witness.loop] at h
    simp only [Prod.mk.injEq, Except.ok.injEq] at h
    obtain ⟨-, hc, hr⟩ := h
    subst hc
    subst hr
    refine ⟨le_refl _, by simp, fun t => ?_⟩
    simp only [Nat.sub_self, List.take_zero, List.nil_append]
    rw [Witness.loop]
  | succ n ih =>
    intro rem cons i cons1 rem1 h
    rw [Witness.loop] at h
    split at h
    · simp at h
    · rename_i l hl
      split at h
      · simp at h
      · rename_i sl hsl
        simp only [emptyVisitor] at h
        obtain ⟨h1, h2, h3⟩ := ih h
        obtain ⟨hc1, hc2⟩ := parse_len_ok hl
        obtain ⟨hq1, hq2, hq3⟩ := read_slice_ok hsl
        simp only [List.length_drop] at hq3
        have hspw : SplitAt rem l.slice_len (rem.take l.slice_len)
            sl.remaining := by
          refine ⟨?_, rfl, ?_⟩
          · unfold Len.slice_len
            omega
          · rw [hq2, List.drop_drop]
            unfold Len.slice_len
            rfl
        have hL : l.slice_len ≤ cons1 - cons := by omega
        have hx : cons1 - cons - l.slice_len = cons1 - (cons + l.slice_len) := by
          omega
        have htk := take_chunk hspw hL
        rw [hx] at htk
        have htksl : rem.take l.slice_len =
            rem.take l.consumed ++ (rem.drop l.consumed).take l.n := by
          unfold Len.slice_len
          rw [List.take_add]
        refine ⟨by omega, ?_, fun t => ?_⟩
        · rw [htk, List.append_assoc, h2]
          exact hspw.append
        · rw [htk, List.append_assoc]
          rw [Witness.loop]
          rw [htksl, List.append_assoc]
          rw [parse_len_stable hl ((rem.drop l.consumed).take l.n ++
            (sl.remaining.take (cons1 - (cons + l.slice_len)) ++ t))]
          simp only
          rw [drop_app (by simp only [List.length_take]; omega)]
          rw [read_slice_app (by
            simp only [List.length_take, List.length_drop]
            omega)]
          simp only [emptyVisitor]
          exact h3 t

theorem witness_visit_stable {s : Bytes} {u : Unit} {pr : ParseResult Witness}
    (h : Witness.visit emptyVisitor s () = (u, .ok pr)) :
    ∀ t, Witness.visit emptyVisitor (pr.parsed.slice ++ t) () =
      ((), .ok ⟨t, pr.parsed⟩) := by
  intro t
  unfold Witness.visit at h
  split at h
  · simp at h
  · rename_i l hl
    simp only [emptyVisitor] at h
    split at h
    · simp at h
    · rename_i p q cons1 rem1 heq
      simp only [Prod.mk.injEq, Except.ok.injEq] at h
      obtain ⟨-, hpr⟩ := h
      subst hpr
      obtain ⟨hc1, hc2⟩ := parse_len_ok hl
      obtain ⟨hb1, hb2, hb3⟩ := witness_loop_ok s heq rfl hc2
      obtain ⟨hla, hlb, hlc⟩ := witness_loop_stable heq
      have hsp0 : SplitAt s l.consumed (s.take l.consumed)
          (s.drop l.consumed) := ⟨hc2, rfl, rfl⟩
      have htk := take_chunk hsp0 (by omega : l.consumed ≤ cons1)
      have hback : ((s.take cons1 ++ t).take cons1) = s.take cons1 := by
        rw [take_app (by simp only [List.length_take]; omega)]
      have hdrop : ((s.take cons1 ++ t).drop cons1) = t := by
        rw [drop_app (by simp only [List.length_take]; omega)]
      show Witness.visit emptyVisitor (s.take cons1 ++ t) () = _
      conv_lhs => rw [htk, List.append_assoc]
      unfold Witness.visit
      rw [parse_len_stable hl
        ((s.drop l.consumed).take (cons1 - l.consumed) ++ t)]
      simp only [emptyVisitor]
      rw [drop_app (by simp only [List.length_take]; omega)]
      simp only [emptyVisitor] at hlc
      rw [hlc t]
      simp only
      rw [show ((s.take l.consumed ++
        ((s.drop l.consumed).take (cons1 - l.consumed) ++ t)) : Bytes) =
        s.take cons1 ++ t from by rw [← List.append_assoc, ← htk]]
      rw [hback, hdrop]

theorem witnesses_loop_stable :
    ∀ {count : Nat} {rem : Bytes} {cons i cons1 : Nat} {ae ae1 : Bool},
      Witnesses.loop emptyVisitor () rem cons ae i count =
        ((), .ok (cons1, ae1)) →
      cons ≤ cons1 ∧
      ∀ t, Witnesses.loop emptyVisitor () (rem.take (cons1 - cons) ++ t) cons
        ae i count = ((), .ok (cons1, ae1)) := by
  intro count
  induction count with
  | zero =>
    intro rem cons i cons1 ae ae1 h
    rw [Witnesses.loop] at h
    simp only [Prod.mk.injEq, Except.ok.injEq] at h
    obtain ⟨-, hc, hr⟩ := h
    subst hc
    subst hr
    refine ⟨le_refl _, fun t => ?_⟩
    rw [Witnesses.loop]
  | succ n ih =>
    intro rem cons i cons1 ae ae1 h
    rw [Witnesses.loop] at h
    simp only [emptyVisitor] at h
    split at h
    · simp at h
    · rename_i p w heq
      obtain ⟨cw, l, hl, hn, hcw1, hspw⟩ := witness_visit_ok heq
      have hlen : w.parsed.slice.length = cw := hspw.len
      obtain ⟨h1, h3⟩ := ih h
      have hL : w.parsed.slice.length ≤ cons1 - cons := by omega
      have hx : cons1 - cons - w.parsed.slice.length =
          cons1 - (cons + w.parsed.slice.length) := by omega
      have hspw2 : SplitAt rem w.parsed.slice.length w.parsed.slice
          w.remaining := by
        rw [hlen]
        exact hspw
      have htk := take_chunk hspw2 hL
      rw [hx] at htk
      refine ⟨by omega, fun t => ?_⟩
      rw [htk, List.append_assoc]
      rw [Witnesses.loop]
      simp only [emptyVisitor]
      have hws := witness_visit_stable heq
        (w.remaining.take (cons1 - (cons + w.parsed.slice.length)) ++ t)
      simp only [emptyVisitor] at hws
      rw [hws]
      exact h3 t

theorem witnesses_visit_stable {s : Bytes} {n : Nat} {u : Unit}
    {pr : ParseResult Witnesses}
    (h : Witnesses.visit emptyVisitor s n () = (u, .ok pr)) :
    ∀ t, Witnesses.visit emptyVisitor (pr.parsed.slice ++ t) n () =
      ((), .ok ⟨t, pr.parsed⟩) := by
  intro t
  unfold Witnesses.visit at h
  split at h
  · simp at h
  · rename_i p q cons1 ae1 heq
    simp only [Prod.mk.injEq, Except.ok.injEq] at h
    obtain ⟨-, hpr⟩ := h
    subst hpr
    obtain ⟨hb1, hb2⟩ := witnesses_loop_ok s heq (by simp)
      (Nat.zero_le _)
    obtain ⟨hla, hlc⟩ := witnesses_loop_stable heq
    have hback : ((s.take cons1 ++ t).take cons1) = s.take cons1 := by
      rw [take_app (by simp only [List.length_take]; omega)]
    have hdrop : ((s.take cons1 ++ t).drop cons1) = t := by
      rw [drop_app (by simp only [List.length_take]; omega)]
    show Witnesses.visit emptyVisitor (s.take cons1 ++ t) n () = _
    unfold Witnesses.visit
    have hlc2 := hlc t
    rw [Nat.sub_zero] at hlc2
    rw [hlc2]
    simp only
    rw [hback, hdrop]

theorem block_header_visit_stable {s : Bytes} {u : Unit}
    {pr : ParseResult BlockHeader}
    (h : BlockHeader.visit emptyVisitor s () = (u, .ok pr)) :
    ∀ t, BlockHeader.visit emptyVisitor (pr.parsed.slice ++ t) () =
      ((), .ok ⟨t, pr.parsed⟩) := by
  intro t
  unfold BlockHeader.visit at h
  split at h
  · simp at h
  · rename_i version hver
    split at h
    · simp at h
    · rename_i hashes hh
      split at h
      · simp at h
      · rename_i time ht
        split at h
        · simp at h
        · rename_i bits hb
          split at h
          · simp at h
          · rename_i nonce hn
            simp only [emptyVisitor] at h
            simp only [Prod.mk.injEq, Except.ok.injEq] at h
            obtain ⟨-, hpr⟩ := h
            subst hpr
            obtain ⟨hv1, hv2, hv3⟩ := i32_parse_ok hver
            obtain ⟨hh1, hh2, hh3⟩ := read_slice_ok hh
            obtain ⟨ht1, ht2, ht3⟩ := u32_parse_ok ht
            obtain ⟨hb1, hb2, hb3⟩ := u32_parse_ok hb
            obtain ⟨hn1, hn2, hn3⟩ := u32_parse_ok hn
            have e68 : hashes.remaining = s.drop 68 := by
              rw [hh2, hv2, List.drop_drop]
            have e72 : time.remaining = s.drop 72 := by
              rw [ht2, e68, List.drop_drop]
            have e76 : bits.remaining = s.drop 76 := by
              rw [hb2, e72, List.drop_drop]
            have hlen : 80 ≤ s.length := by
              rw [e76] at hn3
              simp only [List.length_drop] at hn3
              omega
            rw [e68] at ht1
            rw [e72] at hb1
            rw [e76] at hn1
            have d1 : s.take 80 = s.take 4 ++ (s.drop 4).take 76 := by
              rw [← List.take_add]
            have d2 : (s.drop 4).take 76 =
                (s.drop 4).take 64 ++ (s.drop 68).take 12 := by
              rw [show s.drop 68 = (s.drop 4).drop 64 from by
                rw [List.drop_drop], ← List.take_add]
            have d3 : (s.drop 68).take 12 =
                (s.drop 68).take 4 ++ (s.drop 72).take 8 := by
              rw [show s.drop 72 = (s.drop 68).drop 4 from by
                rw [List.drop_drop], ← List.take_add]
            have d4 : (s.drop 72).take 8 =
                (s.drop 72).take 4 ++ (s.drop 76).take 4 := by
              rw [show s.drop 76 = (s.drop 72).drop 4 from by
                rw [List.drop_drop], ← List.take_add]
            have hdec : s.take 80 ++ t = s.take 4 ++ ((s.drop 4).take 64 ++
                ((s.drop 68).take 4 ++ ((s.drop 72).take 4 ++
                  ((s.drop 76).take 4 ++ t)))) := by
              rw [d1, d2, d3, d4]
              simp only [List.append_assoc]
            have l4 : (s.take 4).length = 4 := by
              simp only [List.length_take]
              omega
            have l64 : ((s.drop 4).take 64).length = 64 := by
              simp only [List.length_take, List.length_drop]
              omega
            have l68 : ((s.drop 68).take 4).length = 4 := by
              simp only [List.length_take, List.length_drop]
              omega
            have l72 : ((s.drop 72).take 4).length = 4 := by
              simp only [List.length_take, List.length_drop]
              omega
            have l76 : ((s.drop 76).take 4).length = 4 := by
              simp only [List.length_take, List.length_drop]
              omega
            have l80 : (s.take 80).length = 80 := by
              simp only [List.length_take]
              omega
            show BlockHeader.visit emptyVisitor (s.take 80 ++ t) () =
              ((), .ok ⟨t, ⟨s.take 80, version.parsed.value,
                time.parsed.value, bits.parsed.value, nonce.parsed.value⟩⟩)
            rw [hdec]
            unfold BlockHeader.visit
            rw [i32_parse_app l4]
            simp only
            rw [read_slice_app l64]
            simp only
            rw [u32_parse_app l68]
            simp only
            rw [u32_parse_app l72]
            simp only
            rw [u32_parse_app l76]
            simp only [emptyVisitor]
            rw [← hdec]
            rw [take_app l80]
            rw [show version.parsed = (⟨s.take 4⟩ : I32) from by rw [← hv1]]
            rw [show time.parsed = (⟨(s.drop 68).take 4⟩ : U32) from by
              rw [← ht1]]
            rw [show bits.parsed = (⟨(s.drop 72).take 4⟩ : U32) from by
              rw [← hb1]]
            rw [show nonce.parsed = (⟨(s.drop 76).take 4⟩ : U32) from by
              rw [← hn1]]

theorem transaction_visit_stable {s : Bytes} {u : Unit}
    {pr : ParseResult Transaction}
    (h : Transaction.visit emptyVisitor s () = (u, .ok pr)) :
    ∀ t, Transaction.visit emptyVisitor (pr.parsed.slice ++ t) () =
      ((), .ok ⟨t, pr.parsed⟩) := by
  intro t
  unfold Transaction.visit at h
  split at h
  · simp at h
  · rename_i version hver
    split at h
    · simp at h
    · rename_i sA inputs hm
      obtain ⟨-, hvrem, hv3⟩ := i32_parse_ok hver
      split at h
      · -- segwit-marker branch
        rename_i hemp
        obtain ⟨cm, lm, hlm, hnm, hlcm, hcm1, hspm, hempm, hempcm⟩ :=
          tx_ins_visit_ok hm
        have hcm : cm = 1 := hempcm hemp
        subst hcm
        have sp2 := hspm
        rw [hvrem] at sp2
        have hmrem : inputs.remaining = s.drop 5 := by
          rw [sp2.2.2, List.drop_drop]
        split at h
        · simp at h
        · rename_i segwit_flag hflag
          obtain ⟨hf1, hf2, hf3⟩ := u8_parse_ok hflag
          have sp3 : SplitAt inputs.remaining 1 segwit_flag.parsed.bytes
              segwit_flag.remaining := ⟨hf3, hf1, hf2⟩
          have hf6 : segwit_flag.remaining = s.drop 6 := by
            rw [hf2, hmrem, List.drop_drop]
          simp only at h
          split at h
          · -- flag byte is 1
            rename_i hflag1
            split at h
            · simp at h
            · rename_i sB inputs2 hin2
              split at h
              · simp at h
              · rename_i sC outputs houts
                split at h
                · simp at h
                · rename_i sD witnesses hwit
                  obtain ⟨ci, li, hli, hni, hlci, hci1, hspi, -, -⟩ :=
                    tx_ins_visit_ok hin2
                  obtain ⟨co, lo, hlo, hno, hlco, hco1, hspo⟩ :=
                    tx_outs_visit_ok houts
                  obtain ⟨cw, hspw⟩ := witnesses_visit_ok hwit
                  have hirem : inputs2.remaining = s.drop (6 + ci) := by
                    rw [hspi.2.2, hf6, List.drop_drop]
                  have horem : outputs.remaining = s.drop (6 + ci + co) := by
                    rw [hspo.2.2, hirem, List.drop_drop]
                  have hwrem : witnesses.remaining =
                      s.drop (6 + ci + co + cw) := by
                    rw [hspw.2.2, horem, List.drop_drop]
                  have hleni : inputs2.parsed.slice.length = ci := hspi.len
                  have hleno : outputs.parsed.slice.length = co := hspo.len
                  have hlenw : witnesses.parsed.slice.length = cw := hspw.len
                  have hlenm : inputs.parsed.slice.length = 1 := hspm.len
                  have hlenf : segwit_flag.parsed.bytes.length = 1 := sp3.len
                  split at h
                  · simp at h
                  · rename_i hcheck
                    split at h
                    · simp at h
                    · rename_i locktime hlock
                      obtain ⟨hl1, hl2, hl4⟩ := u32_parse_ok hlock
                      have hbound : 6 + ci + co + cw + 4 ≤ s.length := by
                        rw [hwrem] at hl4
                        simp only [List.length_drop] at hl4
                        omega
                      simp only [emptyVisitor] at h
                      simp only [Prod.mk.injEq, Except.ok.injEq] at h
                      obtain ⟨-, hpr⟩ := h
                      subst hpr
                      simp only
                      have hip : inputs2.consumed = ci := hleni
                      have hop : outputs.consumed = co := hleno
                      have hwp : witnesses.consumed = cw := hlenw
                      rw [hip, hop, hwp]
                      have hlenlk : (witnesses.remaining.take 4).length = 4 := by
                        rw [hwrem]
                        simp only [List.length_take, List.length_drop]
                        omega
                      have l4 : (s.take 4).length = 4 := by
                        simp only [List.length_take]
                        omega
                      have d1 : s.take (10 + ci + co + cw) =
                          s.take 4 ++ (s.drop 4).take (6 + ci + co + cw) := by
                        have hd := take_chunk
                          (show SplitAt s 4 (s.take 4) (s.drop 4) from
                            ⟨by omega, rfl, rfl⟩)
                          (show 4 ≤ 10 + ci + co + cw by omega)
                        rw [show 10 + ci + co + cw - 4 = 6 + ci + co + cw from
                          by omega] at hd
                        exact hd
                      have d2 : (s.drop 4).take (6 + ci + co + cw) =
                          inputs.parsed.slice ++
                            inputs.remaining.take (5 + ci + co + cw) := by
                        have hd := take_chunk sp2
                          (show 1 ≤ 6 + ci + co + cw by omega)
                        rw [show 6 + ci + co + cw - 1 = 5 + ci + co + cw from
                          by omega] at hd
                        exact hd
                      have d3 : inputs.remaining.take (5 + ci + co + cw) =
                          segwit_flag.parsed.bytes ++
                            segwit_flag.remaining.take (4 + ci + co + cw) := by
                        have hd := take_chunk sp3
                          (show 1 ≤ 5 + ci + co + cw by omega)
                        rw [show 5 + ci + co + cw - 1 = 4 + ci + co + cw from
                          by omega] at hd
                        exact hd
                      have d4 : segwit_flag.remaining.take (4 + ci + co + cw) =
                          inputs2.parsed.slice ++
                            inputs2.remaining.take (4 + co + cw) := by
                        have hd := take_chunk hspi
                          (show ci ≤ 4 + ci + co + cw by omega)
                        rw [show 4 + ci + co + cw - ci = 4 + co + cw from
                          by omega] at hd
                        exact hd
                      have d5 : inputs2.remaining.take (4 + co + cw) =
                          outputs.parsed.slice ++
                            outputs.remaining.take (4 + cw) := by
                        have hd := take_chunk hspo
                          (show co ≤ 4 + co + cw by omega)
                        rw [show 4 + co + cw - co = 4 + cw from by omega] at hd
                        exact hd
                      have d6 : outputs.remaining.take (4 + cw) =
                          witnesses.parsed.slice ++
                            witnesses.remaining.take 4 := by
                        have hd := take_chunk hspw
                          (show cw ≤ 4 + cw by omega)
                        rw [show 4 + cw - cw = 4 from by omega] at hd
                        exact hd
                      have hdec : s.take (10 + ci + co + cw) ++ t =
                          s.take 4 ++ (inputs.parsed.slice ++
                            (segwit_flag.parsed.bytes ++
                              (inputs2.parsed.slice ++
                                (outputs.parsed.slice ++
                                  (witnesses.parsed.slice ++
                                    (witnesses.remaining.take 4 ++ t)))))) := by
                        rw [d1, d2, d3, d4, d5, d6]
                        simp only [List.append_assoc]
                      rw [hdec]
                      unfold Transaction.visit
                      rw [i32_parse_app l4]
                      simp only
                      rw [tx_ins_visit_stable hm (segwit_flag.parsed.bytes ++
                        (inputs2.parsed.slice ++ (outputs.parsed.slice ++
                          (witnesses.parsed.slice ++
                            (witnesses.remaining.take 4 ++ t)))))]
                      simp only
                      rw [if_pos hemp]
                      rw [u8_parse_app hlenf]
                      simp only
                      rw [show (⟨segwit_flag.parsed.bytes⟩ : U8) =
                        segwit_flag.parsed from rfl]
                      rw [if_pos hflag1]
                      rw [tx_ins_visit_stable hin2 (outputs.parsed.slice ++
                        (witnesses.parsed.slice ++
                          (witnesses.remaining.take 4 ++ t)))]
                      simp only
                      rw [tx_outs_visit_stable houts (witnesses.parsed.slice ++
                        (witnesses.remaining.take 4 ++ t))]
                      simp only
                      rw [witnesses_visit_stable hwit
                        (witnesses.remaining.take 4 ++ t)]
                      simp only
                      rw [if_neg hcheck]
                      rw [u32_parse_app hlenlk]
                      simp only [emptyVisitor]
                      simp only [ParseResult.consumed]
                      rw [hleni, hleno]
                      rw [show (AsBytes.bytes inputs2.parsed).length = ci from
                        hleni]
                      rw [show (AsBytes.bytes outputs.parsed).length = co from
                        hleno]
                      rw [show (AsBytes.bytes witnesses.parsed).length = cw from
                        hlenw]
                      rw [← hdec]
                      have hLt : (s.take (10 + ci + co + cw)).length =
                          10 + ci + co + cw := by
                        simp only [List.length_take]
                        omega
                      rw [take_app hLt, drop_app hLt]
          · -- unknown segwit flag: error, contradiction with a success
            simp at h
      · -- legacy branch
        rename_i hemp
        split at h
        · simp at h
        · rename_i sB outputs houts
          obtain ⟨cm, lm, hlm, hnm, hlcm, hcm1, hspm, hempm, hempcm⟩ :=
            tx_ins_visit_ok hm
          obtain ⟨co, lo, hlo, hno, hlco, hco1, hspo⟩ := tx_outs_visit_ok houts
          have sp2 := hspm
          rw [hvrem] at sp2
          have hmrem : inputs.remaining = s.drop (4 + cm) := by
            rw [sp2.2.2, List.drop_drop]
          have horem : outputs.remaining = s.drop (4 + cm + co) := by
            rw [hspo.2.2, hmrem, List.drop_drop]
          have hlenm : inputs.parsed.slice.length = cm := hspm.len
          have hleno : outputs.parsed.slice.length = co := hspo.len
          split at h
          · simp at h
          · rename_i locktime hlock
            obtain ⟨hl1, hl2, hl4⟩ := u32_parse_ok hlock
            have hbound : 4 + cm + co + 4 ≤ s.length := by
              rw [horem] at hl4
              simp only [List.length_drop] at hl4
              omega
            simp only [emptyVisitor] at h
            simp only [Prod.mk.injEq, Except.ok.injEq] at h
            obtain ⟨-, hpr⟩ := h
            subst hpr
            simp only
            have hip : inputs.consumed = cm := hlenm
            have hop : outputs.consumed = co := hleno
            rw [hip, hop]
            have hlenlk : (outputs.remaining.take 4).length = 4 := by
              rw [horem]
              simp only [List.length_take, List.length_drop]
              omega
            have l4 : (s.take 4).length = 4 := by
              simp only [List.length_take]
              omega
            have d1 : s.take (cm + co + 8) =
                s.take 4 ++ (s.drop 4).take (cm + co + 4) := by
              have hd := take_chunk
                (show SplitAt s 4 (s.take 4) (s.drop 4) from
                  ⟨by omega, rfl, rfl⟩)
                (show 4 ≤ cm + co + 8 by omega)
              rw [show cm + co + 8 - 4 = cm + co + 4 from by omega] at hd
              exact hd
            have d2 : (s.drop 4).take (cm + co + 4) =
                inputs.parsed.slice ++ inputs.remaining.take (co + 4) := by
              have hd := take_chunk sp2 (show cm ≤ cm + co + 4 by omega)
              rw [show cm + co + 4 - cm = co + 4 from by omega] at hd
              exact hd
            have d3 : inputs.remaining.take (co + 4) =
                outputs.parsed.slice ++ outputs.remaining.take 4 := by
              have hd := take_chunk hspo (show co ≤ co + 4 by omega)
              rw [show co + 4 - co = 4 from by omega] at hd
              exact hd
            have hdec : s.take (cm + co + 8) ++ t =
                s.take 4 ++ (inputs.parsed.slice ++
                  (outputs.parsed.slice ++ (outputs.remaining.take 4 ++ t))) := by
              rw [d1, d2, d3]
              simp only [List.append_assoc]
            rw [hdec]
            unfold Transaction.visit
            rw [i32_parse_app l4]
            simp only
            rw [tx_ins_visit_stable hm (outputs.parsed.slice ++
              (outputs.remaining.take 4 ++ t))]
            simp only
            rw [if_neg hemp]
            rw [tx_outs_visit_stable houts (outputs.remaining.take 4 ++ t)]
            simp only
            rw [u32_parse_app hlenlk]
            simp only [emptyVisitor]
            simp only [ParseResult.consumed]
            rw [show (AsBytes.bytes inputs.parsed).length = cm from hlenm]
            rw [show (AsBytes.bytes outputs.parsed).length = co from hleno]
            rw [← hdec]
            have hLt : (s.take (cm + co + 8)).length = cm + co + 8 := by
              simp only [List.length_take]
              omega
            rw [take_app hLt, drop_app hLt]

theorem block_loop_stable (slice : Bytes) :
    ∀ {count : Nat} {cons cons1 : Nat},
      Block.loop emptyVisitor () (slice.drop cons) cons count =
        ((), .ok cons1) →
      cons ≤ slice.length →
      cons ≤ cons1 ∧ cons1 ≤ slice.length ∧
      ∀ t, Block.loop emptyVisitor ()
        ((slice.drop cons).take (cons1 - cons) ++ t) cons count =
        ((), .ok cons1) := by
  intro count
  induction count with
  | zero =>
    intro cons cons1 h hlen
    rw [Block.loop] at h
    simp only [Prod.mk.injEq, Except.ok.injEq] at h
    obtain ⟨-, hc⟩ := h
    subst hc
    refine ⟨le_refl _, hlen, fun t => ?_⟩
    rw [Block.loop]
  | succ n ih =>
    intro cons cons1 h hlen
    rw [Block.loop] at h
    split at h
    · simp at h
    · rename_i s2 tx htx
      obtain ⟨c, i, o, -, -, hsp, -⟩ := transaction_visit_ok htx
      have hL : tx.parsed.slice.length = c := hsp.len
      have hrem2 : tx.remaining =
          slice.drop (cons + tx.parsed.slice.length) := by
        rw [hsp.2.2, List.drop_drop, hL]
      have hlen2 : cons + tx.parsed.slice.length ≤ slice.length := by
        have hb := hsp.1
        simp only [List.length_drop] at hb
        omega
      rw [hrem2] at h
      obtain ⟨ih1, ih2, ih3⟩ := ih h hlen2
      have hc' : c ≤ cons1 - cons := by omega
      have htk := take_chunk hsp hc'
      rw [show cons1 - cons - c =
        cons1 - (cons + tx.parsed.slice.length) from by omega] at htk
      rw [hrem2] at htk
      refine ⟨by omega, ih2, fun t => ?_⟩
      rw [htk, List.append_assoc]
      rw [Block.loop]
      rw [transaction_visit_stable htx
        ((slice.drop (cons + tx.parsed.slice.length)).take
          (cons1 - (cons + tx.parsed.slice.length)) ++ t)]
      simp only
      exact ih3 t

theorem block_visit_stable {s : Bytes} {u : Unit} {pr : ParseResult Block}
    (h : Block.visit emptyVisitor s () = (u, .ok pr)) :
    ∀ t, Block.visit emptyVisitor (pr.parsed.slice ++ t) () =
      ((), .ok ⟨t, pr.parsed⟩) := by
  intro t
  unfold Block.visit at h
  split at h
  · simp at h
  · rename_i s2 header hheader
    split at h
    · simp at h
    · rename_i l hl
      simp only [emptyVisitor] at h
      split at h
      · simp at h
      · rename_i s3 cons1 hloop
        simp only [Prod.mk.injEq, Except.ok.injEq] at h
        obtain ⟨-, hpr⟩ := h
        subst hpr
        have hsph := block_header_visit_ok hheader
        have h80 : 80 ≤ s.length := hsph.1
        have hrem80 : header.remaining = s.drop 80 := hsph.2.2
        rw [hrem80] at hsph
        obtain ⟨hc1, hc2⟩ := parse_len_ok hl
        rw [hrem80] at hc2
        simp only [List.length_drop] at hc2
        rw [hrem80] at hl
        obtain ⟨hlo1, hlo2, hlo3⟩ := block_loop_stable s hloop
          (by omega)
        simp only
        have d1 : s.take cons1 =
            header.parsed.slice ++ (s.drop 80).take (cons1 - 80) :=
          take_chunk hsph (by omega)
        have d2 : (s.drop 80).take (cons1 - 80) =
            (s.drop 80).take l.consumed ++
              (s.drop (l.consumed + 80)).take (cons1 - (l.consumed + 80)) := by
          rw [show s.drop (l.consumed + 80) = (s.drop 80).drop l.consumed from
            by rw [List.drop_drop, Nat.add_comm]]
          rw [← List.take_add]
          rw [show l.consumed + (cons1 - (l.consumed + 80)) = cons1 - 80 from
            by omega]
        have hdec : s.take cons1 ++ t = header.parsed.slice ++
            ((s.drop 80).take l.consumed ++
              ((s.drop (l.consumed + 80)).take (cons1 - (l.consumed + 80)) ++
                t)) := by
          rw [d1, d2]
          simp only [List.append_assoc]
        rw [hdec]
        unfold Block.visit
        rw [block_header_visit_stable hheader ((s.drop 80).take l.consumed ++
          ((s.drop (l.consumed + 80)).take (cons1 - (l.consumed + 80)) ++ t))]
        simp only
        rw [parse_len_stable hl
          ((s.drop (l.consumed + 80)).take (cons1 - (l.consumed + 80)) ++ t)]
        simp only [emptyVisitor]
        have hdrop : (header.parsed.slice ++ ((s.drop 80).take l.consumed ++
            ((s.drop (l.consumed + 80)).take (cons1 - (l.consumed + 80)) ++
              t))).drop (l.consumed + 80) =
            (s.drop (l.consumed + 80)).take (cons1 - (l.consumed + 80)) ++
              t := by
          rw [← List.append_assoc]
          exact drop_app (by
            simp only [List.length_append, List.length_take, List.length_drop,
              hsph.len]
            omega)
        rw [hdrop]
        have hstab := hlo3 t
        simp only [emptyVisitor] at hstab
        rw [hstab]
        simp only
        rw [← hdec]
        have hLt : (s.take cons1).length = cons1 := by
          simp only [List.length_take]
          omega
        rw [take_app hLt, drop_app hLt]

end RoundTrip

/-- C4: round-trip re-parse for every parsed type of the library: a value
obtained from a successful parse, when its own stored bytes are parsed
again, parses successfully to a structurally equal value with an empty
remainder (for `Len`, which stores no bytes, re-parsing the consumed
prefix of the input gives back the same `Len`, consuming all of it). -/
theorem c4_round_trip :
    (∀ (input : Bytes) (l : Len), parse_len input = .ok l →
      parse_len (input.take l.consumed) = .ok l) ∧
    (∀ (input : Bytes) (pr : ParseResult OutPoint),
      OutPoint.parse input = .ok pr →
      OutPoint.parse pr.parsed.slice = .ok ⟨[], pr.parsed⟩) ∧
    (∀ (input : Bytes) (pr : ParseResult Script),
      Script.parse input = .ok pr →
      Script.parse pr.parsed.slice = .ok ⟨[], pr.parsed⟩) ∧
    (∀ (input : Bytes) (pr : ParseResult TxIns),
      TxIns.parse input = .ok pr →
      TxIns.parse pr.parsed.slice = .ok ⟨[], pr.parsed⟩) ∧
    (∀ (input : Bytes) (pr : ParseResult TxOuts),
      TxOuts.parse input = .ok pr →
      TxOuts.parse pr.parsed.slice = .ok ⟨[], pr.parsed⟩) ∧
    (∀ (input : Bytes) (pr : ParseResult BlockHeader),
      BlockHeader.parse input = .ok pr →
      BlockHeader.parse pr.parsed.slice = .ok ⟨[], pr.parsed⟩) ∧
    (∀ (input : Bytes) (pr : ParseResult Transaction),
      Transaction.parse input = .ok pr →
      Transaction.parse pr.parsed.slice = .ok ⟨[], pr.parsed⟩) ∧
    (∀ (input : Bytes) (pr : ParseResult Block),
      Block.parse input = .ok pr →
      Block.parse pr.parsed.slice = .ok ⟨[], pr.parsed⟩) := by
  refine ⟨?_, ?_, ?_, ?_, ?_, ?_, ?_, ?_⟩
  · intro input l h
    have h2 := parse_len_stable h []
    rw [List.append_nil] at h2
    exact h2
  · intro input pr h
    have h2 : OutPoint.parse (pr.parsed.slice ++ []) =
        .ok ⟨[], ⟨pr.parsed.slice⟩⟩ :=
      out_point_parse_app (out_point_parse_ok h).len
    rw [List.append_nil] at h2
    exact h2
  · intro input pr h
    have h2 := script_parse_stable h []
    rw [List.append_nil] at h2
    exact h2
  · intro input pr h
    have h2 := tx_ins_visit_stable (to_pair h) []
    rw [List.append_nil] at h2
    unfold TxIns.parse
    rw [h2]
  · intro input pr h
    have h2 := tx_outs_visit_stable (to_pair h) []
    rw [List.append_nil] at h2
    unfold TxOuts.parse
    rw [h2]
  · intro input pr h
    have h2 := block_header_visit_stable (to_pair h) []
    rw [List.append_nil] at h2
    unfold BlockHeader.parse
    rw [h2]
  · intro input pr h
    have h2 := transaction_visit_stable (to_pair h) []
    rw [List.append_nil] at h2
    unfold Transaction.parse
    rw [h2]
  · intro input pr h
    have h2 := block_visit_stable (to_pair h) []
    rw [List.append_nil] at h2
    unfold Block.parse
    rw [h2]

/-- Witness for C4 at a concrete input: the 12-byte minimal segwit
transaction parses fully, and re-parsing its own stored bytes succeeds
with the same value and an empty remainder. -/
theorem c4_round_trip_witness :
    (Transaction.parse [1, 0, 0, 0, 0, 1, 0, 0, 0, 0, 0, 0] =
      .ok ⟨[], ⟨[1, 0, 0, 0, 0, 1, 0, 0, 0, 0, 0, 0], some 2⟩⟩) ∧
    Transaction.parse
        (⟨[], ⟨[1, 0, 0, 0, 0, 1, 0, 0, 0, 0, 0, 0], some 2⟩⟩ :
          ParseResult Transaction).parsed.slice =
      .ok ⟨[], (⟨[], ⟨[1, 0, 0, 0, 0, 1, 0, 0, 0, 0, 0, 0], some 2⟩⟩ :
        ParseResult Transaction).parsed⟩ :=
  ⟨by rfl, c4_round_trip.2.2.2.2.2.2.1 [1, 0, 0, 0, 0, 1, 0, 0, 0, 0, 0, 0] _
    (by rfl)⟩

end BitcoinSlices








